import Mathlib

/-! pkg2: package index, search and installation planning

A shallow embedding of `db/db.go` of tinyrange/pkg2: the package database
(`PackageDatabase`), its search (`Search`, `searchWithProviders`), the bulk
fetch `FetchAll` with its index rebuild and `Get`, the background refresh
`StartAutoRefresh`, and the recursive installation planner (`addPackage`,
`MakeInstallationPlan`).

Go slices are lists, the `installed` map of a plan is a finite set of short
names, the index map is a function from keys to optional packages, and a Go
`error` is a value of `Error`.  The recursion of `addPackage` is bounded by an
explicit fuel argument (the depth of the Go call stack); `none` means the fuel
ran out.  The goroutines of `FetchAll` are run one fetch at a time, in an order
given by a schedule argument; the goroutines of `StartAutoRefresh` are a list of
steps over an explicit state of the channel, the schedulers and the workers.
-/

namespace Pkg2

/-! ## Data model -/

/-- Modelled from the spec: the declaration of `PackageName` is not part of
`db/db.go`, which only reads its field `Distribution`; the spec lists a short
name with optional distribution, version and architecture qualifiers. -/
structure PackageName where
  Distribution : String
  Name : String
  Version : String
  Architecture : String
deriving DecidableEq, Repr

/-- A package as `db/db.go` uses it: `pkg.Name`, `pkg.Aliases` and
`pkg.Depends` (a list of groups, each a list of alternatives). -/
structure Package where
  Name : PackageName
  Aliases : List PackageName
  Depends : List (List PackageName)
deriving DecidableEq, Repr

/-- The Go `error` values that the planner and the bulk fetch handle.
`ErrPackageNotFound` is the distinguished type of `db.go`; `noCandidate` is
the `fmt.Errorf("could not find installation candidate among options")` of
`addPackage`; `failedToLoad` is the `fmt.Errorf("failed to load ...")` of
`FetchAll`; `external` is any other error produced by a callback. -/
inductive Error where
  | ErrPackageNotFound (name : PackageName)
  | noCandidate (depend : List PackageName)
  | failedToLoad (fetcher : String) (cause : String)
  | external (msg : String)
deriving DecidableEq, Repr

/-- The type assertion `err.(ErrPackageNotFound)` of `addPackage`. -/
def Error.isNotFound : Error → Bool
  | .ErrPackageNotFound _ => true
  | _ => false

/-- A repository fetcher: its distribution scope and the packages of its last
successful fetch. -/
structure RepositoryFetcher where
  Distro : String
  Packages : List Package
deriving DecidableEq, Repr

/-- A search provider: `Distribution` and the callback behind
`searchProvider.Search(query, maxResults)`. -/
structure SearchProvider where
  Distribution : String
  Search : PackageName → Int → Except Error (List Package)

/-- The fields of `PackageDatabase` that fetching, searching and planning use.
`packageMap` is the Go map `map[string]*Package`. -/
structure PackageDatabase where
  Fetchers : List RepositoryFetcher
  SearchProviders : List SearchProvider
  packageMap : String → Option Package
  ForceRefresh : Bool
  NoParallel : Bool

/-- The methods that `db/db.go` calls but does not define, taken as
parameters: `PackageName.ShortName`, `PackageName.String`, `Package.Matches`,
`RepositoryFetcher.Matches`, `RepositoryFetcher.Key`,
`RepositoryFetcher.String` and `RepositoryFetcher.fetchWithKey` (which yields
the fetcher after the fetch and the error, if any). -/
structure Methods where
  ShortName : PackageName → String
  NameString : PackageName → String
  PackageMatches : Package → PackageName → Bool
  FetcherMatches : RepositoryFetcher → PackageName → Bool
  Key : RepositoryFetcher → String
  FetcherString : RepositoryFetcher → String
  fetchWithKey : RepositoryFetcher → String → Bool → RepositoryFetcher × Option String

/-! ## Search -/

/-- The loop of `searchWithProviders`: the first provider whose distribution
equals the one of the query answers; without one the result is empty. -/
def searchProvidersLoop (query : PackageName) (maxResults : Int) :
    List SearchProvider → Except Error (List Package)
  | [] => .ok []
  | searchProvider :: rest =>
    if query.Distribution ≠ searchProvider.Distribution then
      searchProvidersLoop query maxResults rest
    else
      match searchProvider.Search query maxResults with
      | .error err => .error err
      | .ok results => .ok results

/-- Go `searchWithProviders`. -/
def searchWithProviders (db : PackageDatabase) (query : PackageName) (maxResults : Int) :
    Except Error (List Package) :=
  searchProvidersLoop query maxResults db.SearchProviders

/-- The inner loop of `Search` over the packages of one fetcher.  The flag of
the result is `true` when the loop left through `break outer`. -/
def scanPackages (m : Methods) (query : PackageName) (maxResults : Int) :
    List Package → List Package → List Package × Bool
  | [], ret => (ret, false)
  | pkg :: rest, ret =>
    if m.PackageMatches pkg query then
      if maxResults ≠ 0 ∧ ((ret ++ [pkg]).length : Int) ≥ maxResults then
        (ret ++ [pkg], true)
      else
        scanPackages m query maxResults rest (ret ++ [pkg])
    else
      scanPackages m query maxResults rest ret

/-- The outer loop of `Search` over the fetchers, in registration order. -/
def scanFetchers (m : Methods) (query : PackageName) (maxResults : Int) :
    List RepositoryFetcher → List Package → List Package
  | [], ret => ret
  | fetcher :: rest, ret =>
    if !m.FetcherMatches fetcher query then
      scanFetchers m query maxResults rest ret
    else
      match scanPackages m query maxResults fetcher.Packages ret with
      | (ret1, true) => ret1
      | (ret1, false) => scanFetchers m query maxResults rest ret1

/-- Go `PackageDatabase.Search`. -/
def Search (m : Methods) (db : PackageDatabase) (query : PackageName) (maxResults : Int) :
    Except Error (List Package) :=
  let ret := scanFetchers m query maxResults db.Fetchers []
  if ret.length = 0 then
    searchWithProviders db query maxResults
  else
    .ok ret

/-- Go `PackageDatabase.Get`: a lookup in the index map. -/
def Get (db : PackageDatabase) (key : String) : Option Package :=
  db.packageMap key

/-! ## Installation planner -/

/-- Go `InstallationPlan`: the set of installed short names (the keys of the
map `installed`) and the output sequence `Packages`. -/
structure InstallationPlan where
  installed : Finset String
  Packages : List Package
deriving DecidableEq

/-- Go `InstallationPlan.checkName`. -/
def checkName (m : Methods) (plan : InstallationPlan) (name : PackageName) : Bool :=
  decide (m.ShortName name ∈ plan.installed)

/-- Go `InstallationPlan.addName`; the Go method always returns a nil error. -/
def addName (m : Methods) (plan : InstallationPlan) (name : PackageName) : InstallationPlan :=
  { plan with installed := insert (m.ShortName name) plan.installed }

/-- The two marking steps of `addPackage`: `addName(pkg.Name)` and then
`addName(alias)` for every alias in order. -/
def markPackage (m : Methods) (plan : InstallationPlan) (pkg : Package) : InstallationPlan :=
  pkg.Aliases.foldl (addName m) (addName m plan pkg.Name)

/-- What a call of `addPackage` leaves behind: `none` when the fuel ran out,
otherwise the returned error (`none` for nil) and the plan as mutated. -/
abbrev Outcome := Option (Option Error × InstallationPlan)

/-- The loop of `addPackage` over the alternatives `option` of one dependency
group `depend`; `call` is the recursive call of `addPackage`. -/
def addOptions (call : PackageName → InstallationPlan → Outcome) (depend : List PackageName) :
    List PackageName → InstallationPlan → Outcome
  | [], plan => some (some (.noCandidate depend), plan)
  | option :: rest, plan =>
    match call option plan with
    | none => none
    | some (some err, plan1) =>
      if err.isNotFound then addOptions call depend rest plan1
      else some (some err, plan1)
    | some (none, plan1) => some (none, plan1)

/-- The loop `outer` of `addPackage` over the dependency groups. -/
def addDepends (call : PackageName → InstallationPlan → Outcome) :
    List (List PackageName) → InstallationPlan → Outcome
  | [], plan => some (none, plan)
  | depend :: rest, plan =>
    match addOptions call depend depend plan with
    | none => none
    | some (some err, plan1) => some (some err, plan1)
    | some (none, plan1) => addDepends call rest plan1

/-- Go `InstallationPlan.addPackage`, with the depth of the recursion bounded
by the fuel. -/
def addPackage (m : Methods) (db : PackageDatabase) :
    Nat → PackageName → InstallationPlan → Outcome
  | 0, _, _ => none
  | fuel + 1, query, plan =>
    if checkName m plan query then
      some (none, plan)
    else
      match Search m db query 1 with
      | .error err => some (some err, plan)
      | .ok [pkg] =>
        match addDepends (addPackage m db fuel) pkg.Depends (markPackage m plan pkg) with
        | none => none
        | some (some err, plan1) => some (some err, plan1)
        | some (none, plan1) => some (none, { plan1 with Packages := plan1.Packages ++ [pkg] })
      | .ok _ => some (some (.ErrPackageNotFound query), plan)

/-- The loop of `MakeInstallationPlan` over the requested names. -/
def planLoop (m : Methods) (db : PackageDatabase) (fuel : Nat) :
    List PackageName → InstallationPlan → Option (Except Error InstallationPlan)
  | [], plan => some (.ok plan)
  | pkg :: rest, plan =>
    match addPackage m db fuel pkg plan with
    | none => none
    | some (some err, _) => some (.error err)
    | some (none, plan1) => planLoop m db fuel rest plan1

/-- Go `PackageDatabase.MakeInstallationPlan`: `.error` stands for the pair
`(nil, err)`, `.ok plan` for `(plan, nil)`. -/
def MakeInstallationPlan (m : Methods) (db : PackageDatabase) (fuel : Nat)
    (packages : List PackageName) : Option (Except Error InstallationPlan) :=
  planLoop m db fuel packages ⟨∅, []⟩

/-! ## Bulk fetch and the index -/

/-- The assignment `db.packageMap[key] = pkg`. -/
def mapSet (index : String → Option Package) (key : String) (pkg : Package) :
    String → Option Package :=
  fun k => if k = key then some pkg else index k

/-- The loop `for _, pkg := range fetcher.Packages` that writes the packages of
one fetcher into the index under `pkg.Name.String()`. -/
def indexPackages (m : Methods) (index : String → Option Package) (pkgs : List Package) :
    String → Option Package :=
  pkgs.foldl (fun acc pkg => mapSet acc (m.NameString pkg.Name) pkg) index

/-- The index rebuild at the end of `FetchAll`: a fresh map, filled from every
fetcher in registration order. -/
def rebuildIndex (m : Methods) (fetchers : List RepositoryFetcher) : String → Option Package :=
  fetchers.foldl (fun acc fetcher => indexPackages m acc fetcher.Packages) (fun _ => none)

/-- One call `fetcher.fetchWithKey(db.Eif, fetcher.Key(), force)`; a failure is
wrapped as `fmt.Errorf("failed to load %s: %s", fetcher.String(), err)`. -/
def fetchOne (m : Methods) (force : Bool) (fetcher : RepositoryFetcher) :
    RepositoryFetcher × Option Error :=
  match m.fetchWithKey fetcher (m.Key fetcher) force with
  | (fetcher1, none) => (fetcher1, none)
  | (fetcher1, some cause) => (fetcher1, some (.failedToLoad (m.FetcherString fetcher1) cause))

/-- The fetch loop of `FetchAll` with `NoParallel` set: every round adds one
to the wait counter and fetches in place; a failure returns at once.  The
result is the fetchers, the wait counter, and the error. -/
def fetchSequential (m : Methods) (force : Bool) :
    List RepositoryFetcher → Nat → List RepositoryFetcher × Nat × Option Error
  | [], wg => ([], wg, none)
  | fetcher :: rest, wg =>
    match fetchOne m force fetcher with
    | (fetcher1, some err) => (fetcher1 :: rest, wg + 1, some err)
    | (fetcher1, none) =>
      match fetchSequential m force rest (wg + 1) with
      | (rest1, wg1, err) => (fetcher1 :: rest1, wg1, err)

/-- The goroutines that `FetchAll` starts without `NoParallel`, run one fetch at
a time in the order of `schedule` (indices into the fetchers; an index that
already ran or does not exist is passed over).  A goroutine whose fetch fails
sends its error, which the `select` of `FetchAll` receives: the run stops
there.  A goroutine whose fetch succeeds takes one off the wait counter
(`wg.Done`).  The result is the fetchers, the wait counter, and the error. -/
def runGoroutines (m : Methods) (force : Bool) :
    List Nat → List RepositoryFetcher → List Nat → Nat →
      List RepositoryFetcher × Nat × Option Error
  | [], fetchers, _, wg => (fetchers, wg, none)
  | i :: schedule, fetchers, ran, wg =>
    if i ∈ ran then runGoroutines m force schedule fetchers ran wg
    else
      match fetchers[i]? with
      | none => runGoroutines m force schedule fetchers ran wg
      | some fetcher =>
        match fetchOne m force fetcher with
        | (fetcher1, some err) => (fetchers.set i fetcher1, wg, some err)
        | (fetcher1, none) =>
          runGoroutines m force schedule (fetchers.set i fetcher1) (i :: ran) (wg - 1)

/-- How a call of `FetchAll` ends: it returns, with an error or nil and the
database as it then is, or it stays blocked in its `select`. -/
inductive FetchAllOutcome where
  | returned (err : Option Error) (db : PackageDatabase)
  | blocked (db : PackageDatabase)

/-- Go `PackageDatabase.FetchAll`.  The fetch loop adds one to the wait counter
for every fetcher and fetches in place (`NoParallel`) or starts a goroutine;
`schedule` is the order in which the goroutines run.  The `select` returns the
first error sent; `done` is signalled only when the wait counter is back at
zero, and then the index is rebuilt from scratch. -/
def FetchAll (m : Methods) (db : PackageDatabase) (schedule : List Nat) : FetchAllOutcome :=
  match (if db.NoParallel then fetchSequential m db.ForceRefresh db.Fetchers 0
      else runGoroutines m db.ForceRefresh schedule db.Fetchers [] db.Fetchers.length) with
  | (fetchers, _, some err) => .returned (some err) { db with Fetchers := fetchers }
  | (fetchers, wg, none) =>
    if wg = 0 then
      .returned none { db with Fetchers := fetchers, packageMap := rebuildIndex m fetchers }
    else
      .blocked { db with Fetchers := fetchers }

/-! ## Background refresh -/

/-- The struct sent over the channel `updateRequests`: the fetcher, as its
index in `db.Fetchers`, and the force flag. -/
structure UpdateRequest where
  fetcher : Nat
  force : Bool
deriving DecidableEq, Repr

/-- The state of the goroutines of `StartAutoRefresh`: the fetchers and the
index they maintain, the content of the buffered channel `updateRequests`, for
every scheduler whether it has sent its first request, and for every worker the
request whose fetch is in flight, if any. -/
structure RefreshState where
  Fetchers : List RepositoryFetcher
  packageMap : String → Option Package
  updateRequests : List UpdateRequest
  started : List Bool
  workers : List (Option UpdateRequest)

/-- Go `PackageDatabase.StartAutoRefresh`: the state it leaves when it returns.
The index is a fresh map, the channel of capacity `maxParallelFetchers` is
empty, one scheduler per fetcher and `maxParallelFetchers` workers have been
started. -/
def StartAutoRefresh (db : PackageDatabase) (maxParallelFetchers : Nat) : RefreshState :=
  { Fetchers := db.Fetchers
    packageMap := fun _ => none
    updateRequests := []
    started := db.Fetchers.map (fun _ => false)
    workers := List.replicate maxParallelFetchers none }

/-- The body of a worker of `StartAutoRefresh` for the request it received: the
call of `fetchWithKey`, and then, when the fetch succeeded, the merge loop that
writes the packages of that fetcher into the index under the mutex; when the
fetch failed the warning is logged and the round ends.  The result is the
fetcher after the fetch and the index. -/
def refreshWorker (m : Methods) (index : String → Option Package)
    (fetcher : RepositoryFetcher) (force : Bool) :
    RepositoryFetcher × (String → Option Package) :=
  match m.fetchWithKey fetcher (m.Key fetcher) force with
  | (fetcher1, some _) => (fetcher1, index)
  | (fetcher1, none) => (fetcher1, indexPackages m index fetcher1.Packages)

/-- What a goroutine of `StartAutoRefresh` does next: the scheduler of fetcher
`i` sends its first request or, on a tick, a forced one; the worker `w`
receives a request and calls `fetchWithKey`, or its fetch returns and it runs
the rest of its round. -/
inductive RefreshEvent where
  | first (i : Nat)
  | tick (i : Nat)
  | receive (w : Nat)
  | complete (w : Nat)
deriving DecidableEq, Repr

/-- One step of a goroutine of `StartAutoRefresh`; `none` when the goroutine
cannot take it: a send blocks while the channel holds `maxParallelFetchers`
requests, a receive blocks while it is empty, and a worker takes its next
request only after its round is over. -/
def refreshStep (m : Methods) (maxParallelFetchers : Nat) (forceRefresh : Bool)
    (s : RefreshState) : RefreshEvent → Option RefreshState
  | .first i =>
    if s.started[i]? = some false ∧ s.updateRequests.length < maxParallelFetchers then
      some { s with
        updateRequests := s.updateRequests ++ [⟨i, forceRefresh⟩]
        started := s.started.set i true }
    else none
  | .tick i =>
    if s.started[i]? = some true ∧ s.updateRequests.length < maxParallelFetchers then
      some { s with updateRequests := s.updateRequests ++ [⟨i, true⟩] }
    else none
  | .receive w =>
    match s.workers[w]?, s.updateRequests with
    | some none, updateRequest :: rest =>
      some { s with updateRequests := rest, workers := s.workers.set w (some updateRequest) }
    | _, _ => none
  | .complete w =>
    match s.workers[w]? with
    | some (some updateRequest) =>
      match s.Fetchers[updateRequest.fetcher]? with
      | some fetcher =>
        some { s with
          Fetchers := s.Fetchers.set updateRequest.fetcher
            (refreshWorker m s.packageMap fetcher updateRequest.force).1
          packageMap := (refreshWorker m s.packageMap fetcher updateRequest.force).2
          workers := s.workers.set w none }
      | none => none
    | _ => none

/-- A run of the goroutines: the steps taken one after the other. -/
def refreshRun (m : Methods) (maxParallelFetchers : Nat) (forceRefresh : Bool) :
    List RefreshEvent → RefreshState → Option RefreshState
  | [], s => some s
  | event :: events, s =>
    match refreshStep m maxParallelFetchers forceRefresh s event with
    | none => none
    | some s1 => refreshRun m maxParallelFetchers forceRefresh events s1

/-- The number of calls of `fetchWithKey` in flight. -/
def inFlight (s : RefreshState) : Nat :=
  (s.workers.filterMap id).length

/-- The number of calls of `fetchWithKey` in flight for the fetcher `i`. -/
def fetchesInFlight (s : RefreshState) (i : Nat) : Nat :=
  ((s.workers.filterMap id).filter (fun updateRequest => updateRequest.fetcher = i)).length

/-! ## Specification-side definitions -/

/-- The sequence `L` of the search contract: the packages that match the
query, over the fetchers that match it, in registration order and then in the
order of each fetcher's list. -/
def matching (m : Methods) (query : PackageName) (fetchers : List RepositoryFetcher) :
    List Package :=
  (fetchers.filter (fun f => m.FetcherMatches f query)).flatMap
    (fun f => f.Packages.filter (fun p => m.PackageMatches p query))

/-- The last package named `key` in a sequence of packages. -/
def lastNamed (m : Methods) (key : String) (pkgs : List Package) : Option Package :=
  (pkgs.filter (fun pkg => m.NameString pkg.Name = key)).getLast?

/-- The short names that `addPackage` marks for a resolved package: the one of
its primary name and the one of every alias. -/
def shortNames (m : Methods) (pkg : Package) : List String :=
  m.ShortName pkg.Name :: pkg.Aliases.map m.ShortName

/-- The short names carried by the packages that the fetchers list. -/
def fetchedShortNames (m : Methods) (db : PackageDatabase) : Finset String :=
  ((db.Fetchers.flatMap (fun f => f.Packages)).flatMap (shortNames m)).toFinset

/-- The result of `Search(a, 1)` makes `addPackage` report package-not-found:
the search fails with an error of that type, or it does not return exactly one
package. -/
def Misses (m : Methods) (db : PackageDatabase) (a : PackageName) : Prop :=
  match Search m db a 1 with
  | .error err => err.isNotFound = true
  | .ok [_] => False
  | .ok _ => True

/-- The package resolved for the alternative `o` is among `before`: a package
there carries the short name of `o`, or is the package that `Search` resolves
`o` to. -/
def Satisfies (m : Methods) (db : PackageDatabase) (before : List Package)
    (o : PackageName) : Prop :=
  ∃ y ∈ before, m.ShortName o ∈ shortNames m y ∨ Search m db o 1 = .ok [y]

/-- The dependency group `g` has an accepted alternative resolved within
`before`: the alternatives ahead of it all miss in `Search`. -/
def GroupResolved (m : Methods) (db : PackageDatabase) (before : List Package)
    (g : List PackageName) : Prop :=
  ∃ skipped o rest, g = skipped ++ o :: rest ∧ (∀ a ∈ skipped, Misses m db a) ∧
    Satisfies m db before o

/-- A valid install order: every package of the sequence comes after the
package resolved for the accepted alternative of each of its dependency
groups. -/
def InstallOrder (m : Methods) (db : PackageDatabase) (l : List Package) : Prop :=
  ∀ before x after, l = before ++ x :: after →
    ∀ g ∈ x.Depends, GroupResolved m db before g

/-- The dependency relation among short names: `s` depends on `t` when a
package that `Search` resolves, and that answers to `s` (as the short name of
the query that finds it, of its primary name, or of an alias), lists an
alternative with short name `t` in one of its dependency groups. -/
def DependsOn (m : Methods) (db : PackageDatabase) (s t : String) : Prop :=
  ∃ q pkg, Search m db q 1 = .ok [pkg] ∧ (s = m.ShortName q ∨ s ∈ shortNames m pkg) ∧
    ∃ g ∈ pkg.Depends, ∃ o ∈ g, m.ShortName o = t

/-- No cycle in the dependency relation among short names. -/
def Acyclic (m : Methods) (db : PackageDatabase) : Prop :=
  ∀ s, ¬ Relation.TransGen (DependsOn m db) s s

/-- Every package that `Search` resolves a name to answers to that name: the
short name of the query is the short name of the package's primary name or of
one of its aliases. -/
def Answers (m : Methods) (db : PackageDatabase) : Prop :=
  ∀ q pkg, Search m db q 1 = .ok [pkg] → m.ShortName q ∈ shortNames m pkg

/-- The short names that resolved packages carry all lie in the finite set
`U`: the database has finitely many packages to offer. -/
def Bounded (m : Methods) (db : PackageDatabase) (U : Finset String) : Prop :=
  ∀ q pkg, Search m db q 1 = .ok [pkg] → ∀ s ∈ shortNames m pkg, s ∈ U

/-- During the resolution that `addPackage` starts for the name `q` from the
plan `p`, with the depth bound given first, every alternative of the dependency
group `g` of a resolved package fails with package-not-found, the plan being
`pf` at that point.  Either the group belongs to the package resolved for `q`
itself (the groups ahead of it were satisfied), or it is met below an
alternative `a` that is tried for a group of that package (the alternatives
ahead of `a` having failed with package-not-found). -/
inductive Exhausts (m : Methods) (db : PackageDatabase) :
    Nat → PackageName → InstallationPlan → List PackageName → InstallationPlan → Prop
  | atPackage (n : Nat) (q : PackageName) (p : InstallationPlan) (pkg : Package)
      (done : List (List PackageName)) (g : List PackageName)
      (todo : List (List PackageName)) (p1 : InstallationPlan) :
      checkName m p q = false → Search m db q 1 = .ok [pkg] →
      pkg.Depends = done ++ g :: todo →
      addDepends (addPackage m db n) done (markPackage m p pkg) = some (none, p1) →
      (∀ a ∈ g, ∃ e pa, addPackage m db n a p1 = some (some e, pa) ∧ e.isNotFound = true) →
      Exhausts m db (n + 1) q p g p1
  | underAlternative (n : Nat) (q : PackageName) (p : InstallationPlan) (pkg : Package)
      (done : List (List PackageName)) (skipped : List PackageName) (a : PackageName)
      (later : List PackageName) (todo : List (List PackageName)) (p1 : InstallationPlan)
      (g : List PackageName) (pf : InstallationPlan) :
      checkName m p q = false → Search m db q 1 = .ok [pkg] →
      pkg.Depends = done ++ (skipped ++ a :: later) :: todo →
      addDepends (addPackage m db n) done (markPackage m p pkg) = some (none, p1) →
      (∀ b ∈ skipped, ∃ e pb,
        addPackage m db n b p1 = some (some e, pb) ∧ e.isNotFound = true) →
      Exhausts m db n a p1 g pf →
      Exhausts m db (n + 1) q p g pf

/-- A state of the goroutines is reachable: some run leads to it from the
state that `StartAutoRefresh` leaves. -/
def Reachable (m : Methods) (db : PackageDatabase) (maxParallelFetchers : Nat)
    (forceRefresh : Bool) (s : RefreshState) : Prop :=
  ∃ events, refreshRun m maxParallelFetchers forceRefresh events
    (StartAutoRefresh db maxParallelFetchers) = some s

/-! ## Invariants used in the proofs -/

/-- Every short name marked installed is carried by a package already in the
output sequence, or is one of the names `A` of packages still being
resolved. -/
def Backed (m : Methods) (A : String → Prop) (p : InstallationPlan) : Prop :=
  ∀ s ∈ p.installed, (∃ y ∈ p.Packages, s ∈ shortNames m y) ∨ A s

/-- The plan `p1` extends `p` by appended packages and by exactly the short
names those packages carry. -/
def Extends (m : Methods) (p p1 : InstallationPlan) : Prop :=
  ∃ added, p1.Packages = p.Packages ++ added ∧
    ∀ s, s ∈ p1.installed ↔ (s ∈ p.installed ∨ ∃ y ∈ added, s ∈ shortNames m y)

/-- What the order argument needs from a successful recursive call: started
from a plan whose pending short names all lead to the query in the dependency
relation, it extends the plan, keeps the install order, and leaves the package
resolved for the query in the output sequence. -/
def OrderedCall (m : Methods) (db : PackageDatabase)
    (call : PackageName → InstallationPlan → Outcome) : Prop :=
  ∀ o p p1, Backed m (fun s => Relation.TransGen (DependsOn m db) s (m.ShortName o)) p →
    call o p = some (none, p1) →
    Extends m p p1 ∧ (InstallOrder m db p.Packages → InstallOrder m db p1.Packages) ∧
      Satisfies m db p1.Packages o

/-- What the loops need from a recursive call that reports package-not-found:
the plan is as before and `Search` missed. -/
def RestoringCall (m : Methods) (db : PackageDatabase)
    (call : PackageName → InstallationPlan → Outcome) : Prop :=
  ∀ o p e p1, call o p = some (some e, p1) → e.isNotFound = true →
    p1 = p ∧ m.ShortName o ∉ p.installed ∧ Misses m db o

/-- The output sequence has no duplicate and every package in it has all its
short names marked installed. -/
def Sound (m : Methods) (p : InstallationPlan) : Prop :=
  p.Packages.Nodup ∧ ∀ y ∈ p.Packages, ∀ s ∈ shortNames m y, s ∈ p.installed

/-- From `p` to `p1` the installed set only grows, and every package that is
new in the output carries a short name that was not installed in `p`. -/
def Fresh (m : Methods) (p p1 : InstallationPlan) : Prop :=
  p.installed ⊆ p1.installed ∧
    ∀ y ∈ p1.Packages, y ∈ p.Packages ∨ ∃ s ∈ shortNames m y, s ∉ p.installed

/-- What the duplicate-freedom argument needs from a recursive call. -/
def SoundCall (m : Methods) (call : PackageName → InstallationPlan → Outcome) : Prop :=
  ∀ o p r p1, Sound m p → call o p = some (r, p1) →
    Sound m p1 ∧ Fresh m p p1 ∧ (r = none → m.ShortName o ∈ p1.installed)

/-- A recursive call never removes a short name from the installed set. -/
def GrowingCall (call : PackageName → InstallationPlan → Outcome) : Prop :=
  ∀ o p r p1, call o p = some (r, p1) → p.installed ⊆ p1.installed

/-- A recursive call only appends to the output sequence. -/
def AppendingCall (call : PackageName → InstallationPlan → Outcome) : Prop :=
  ∀ o p r p1, call o p = some (r, p1) → ∃ added, p1.Packages = p.Packages ++ added

/-- A recursive call returns whenever fewer than `k` short names of `U` are
still not installed. -/
def TotalCall (U : Finset String) (k : Nat)
    (call : PackageName → InstallationPlan → Outcome) : Prop :=
  ∀ o p, (U \ p.installed).card < k → ∃ r, call o p = some r

/-- The size of the worker pool and the bound of the channel. -/
def PoolBounded (maxParallelFetchers : Nat) (s : RefreshState) : Prop :=
  s.workers.length = maxParallelFetchers ∧ s.updateRequests.length ≤ maxParallelFetchers

/-! ## Example data -/

/-- A package name without qualifiers. -/
def mkName (s : String) : PackageName := ⟨"", s, "", ""⟩

/-- Modelled from the spec: an instance of the methods that `db.go` calls but
does not define, used to evaluate the examples.  The short name is the `Name`
field (the deduplication key, coarser than the full identity); a package
matches a query when its name or one of its aliases has the short name of the
query (aliases are alternate identities that satisfy the same dependency); a
fetcher matches unless the query names another distribution; a fetch keeps the
fetcher as it is and succeeds. -/
def exampleMethods : Methods where
  ShortName := fun n => n.Name
  NameString := fun n => n.Distribution ++ "/" ++ n.Name ++ "/" ++ n.Version ++ "/" ++ n.Architecture
  PackageMatches := fun p q => (p.Name :: p.Aliases).any (fun a => a.Name == q.Name)
  FetcherMatches := fun f q => q.Distribution == "" || q.Distribution == f.Distro
  Key := fun f => f.Distro
  FetcherString := fun f => f.Distro
  fetchWithKey := fun f _ _ => (f, none)

/-- The example of the alternatives: `x` depends on the group `[[y, z]]`, `y`
is listed by no fetcher, `z` is. -/
def pkgZ : Package := ⟨mkName "z", [], []⟩

/-- The package `x` of the example of the alternatives. -/
def pkgX : Package := ⟨mkName "x", [], [[mkName "y", mkName "z"]]⟩

/-- The database of the example of the alternatives: one fetcher, no search
provider. -/
def dbAlternatives : PackageDatabase :=
  ⟨[⟨"", [pkgX, pkgZ]⟩], [], fun _ => none, false, false⟩

/-- Three packages that answer to the alias `editor`. -/
def pkgVim : Package := ⟨mkName "vim", [mkName "editor"], []⟩

/-- The second package with the alias `editor`. -/
def pkgNano : Package := ⟨mkName "nano", [mkName "editor"], []⟩

/-- The third package with the alias `editor`. -/
def pkgEmacs : Package := ⟨mkName "emacs", [mkName "editor"], []⟩

/-- A database of two fetchers: three of their packages match `editor`. -/
def dbEditors : PackageDatabase :=
  ⟨[⟨"", [pkgVim, pkgZ, pkgNano]⟩, ⟨"", [pkgEmacs]⟩], [], fun _ => none, false, false⟩

/-- A provider for the distribution `alpine` that fails. -/
def providerAlpine : SearchProvider := ⟨"alpine", fun _ _ => .error (.external "offline")⟩

/-- A provider for queries without distribution that answers every query with
`vim`. -/
def providerVim : SearchProvider := ⟨"", fun _ _ => .ok [pkgVim]⟩

/-- A second provider for queries without distribution. -/
def providerNano : SearchProvider := ⟨"", fun _ _ => .ok [pkgNano]⟩

/-- A database without fetchers and with three providers. -/
def dbProviders : PackageDatabase :=
  ⟨[], [providerAlpine, providerVim, providerNano], fun _ => none, false, false⟩

/-- The package `foo` of the cycle example: it depends on `[[bar]]`. -/
def pkgFoo : Package := ⟨mkName "foo", [], [[mkName "bar"]]⟩

/-- The package `bar` of the cycle example: it depends on `[[foo]]`. -/
def pkgBar : Package := ⟨mkName "bar", [], [[mkName "foo"]]⟩

/-- The database of the cycle example: fetcher A lists `foo`, fetcher B lists
`bar`. -/
def dbCycle : PackageDatabase :=
  ⟨[⟨"", [pkgFoo]⟩, ⟨"", [pkgBar]⟩], [], fun _ => none, false, false⟩

/-- The diamond: `top` depends on `left` and on `right`, both depend on
`base`. -/
def pkgBase : Package := ⟨mkName "base", [], []⟩

/-- The left side of the diamond. -/
def pkgLeft : Package := ⟨mkName "left", [], [[mkName "base"]]⟩

/-- The right side of the diamond. -/
def pkgRight : Package := ⟨mkName "right", [], [[mkName "base"]]⟩

/-- The top of the diamond. -/
def pkgTop : Package := ⟨mkName "top", [], [[mkName "left"], [mkName "right"]]⟩

/-- The database of the diamond: one fetcher, no search provider. -/
def dbDiamond : PackageDatabase :=
  ⟨[⟨"", [pkgTop, pkgLeft, pkgRight, pkgBase]⟩], [], fun _ => none, false, false⟩

/-- A package named `v` that depends on `[[e]]`. -/
def pkgLoop : Package := ⟨mkName "v", [], [[mkName "e"]]⟩

/-- A database without fetchers whose only provider answers every query with
the package `v`. -/
def dbLoop : PackageDatabase :=
  ⟨[], [⟨"", fun _ _ => .ok [pkgLoop]⟩], fun _ => none, false, false⟩

/-- A package `q` that depends on the group `[[amb, z]]`. -/
def pkgQ : Package := ⟨mkName "q", [], [[mkName "amb", mkName "z"]]⟩

/-- A database whose provider ignores the cap and answers every name that the
fetcher does not list with two packages. -/
def dbAmbiguous : PackageDatabase :=
  ⟨[⟨"", [pkgQ, pkgZ]⟩], [⟨"", fun _ _ => .ok [pkgVim, pkgNano]⟩], fun _ => none, false, false⟩

/-- The package `a` depends on `[[b]]`. -/
def pkgA : Package := ⟨mkName "a", [], [[mkName "b"]]⟩

/-- The package `b` depends on `[[c, d]]`, and neither `c` nor `d` is listed. -/
def pkgB : Package := ⟨mkName "b", [], [[mkName "c", mkName "d"]]⟩

/-- A database in which the group `[[c, d]]` of `b` has no candidate. -/
def dbMissing : PackageDatabase :=
  ⟨[⟨"", [pkgA, pkgB]⟩], [], fun _ => none, false, false⟩

/-- A second package with the name `vim`. -/
def pkgVimNew : Package := ⟨mkName "vim", [], []⟩

/-- A database of two fetchers that both list a package named `vim`, with an
index that still holds an entry no fetcher lists. -/
def dbStale : PackageDatabase :=
  ⟨[⟨"", [pkgVim, pkgZ]⟩, ⟨"", [pkgVimNew]⟩], [],
    fun k => if k = "/gone//" then some pkgNano else none, false, false⟩

/-- Modelled from the spec: a second instance of the methods, whose fetch can
fail and can change the list of a fetcher.  A fetcher of the distribution
`down` fails with a network error and keeps its packages; every other fetcher
succeeds, and a forced fetch replaces its list by the list with `emacs`
appended. -/
def refreshMethods : Methods :=
  { exampleMethods with
    fetchWithKey := fun f _ force =>
      if f.Distro = "down" then (f, some "connection refused")
      else if force then ({ f with Packages := f.Packages ++ [pkgEmacs] }, none)
      else (f, none) }

/-- A database of three fetchers, the second of which is down, with an index
from an earlier fetch. -/
def dbOneDown : PackageDatabase :=
  ⟨[⟨"up", [pkgVim]⟩, ⟨"down", [pkgZ]⟩, ⟨"up", [pkgNano]⟩], [],
    fun k => if k = "/z//" then some pkgZ else none, false, false⟩

/-- A database with `NoParallel` set and a single fetcher. -/
def dbNoParallel : PackageDatabase :=
  ⟨[⟨"up", [pkgVim]⟩], [], fun _ => none, false, true⟩

/-- A database with a single fetcher. -/
def dbSingle : PackageDatabase :=
  ⟨[⟨"up", [pkgVim]⟩], [], fun _ => none, false, false⟩

/-! # Theorems -/

/-! ## Search: the scan of the fetchers and the provider fallback -/

theorem matching_nil (m : Methods) (q : PackageName) : matching m q [] = [] := rfl

theorem matching_cons (m : Methods) (q : PackageName) (f : RepositoryFetcher)
    (fs : List RepositoryFetcher) :
    matching m q (f :: fs) =
      (if m.FetcherMatches f q then f.Packages.filter (fun p => m.PackageMatches p q) else [])
        ++ matching m q fs := by
  unfold matching
  by_cases h : m.FetcherMatches f q = true
  · simp [List.filter_cons, h]
  · simp [List.filter_cons, h]

theorem matching_append (m : Methods) (q : PackageName) (fs gs : List RepositoryFetcher) :
    matching m q (fs ++ gs) = matching m q fs ++ matching m q gs := by
  unfold matching
  simp [List.filter_append]

/-- Without a cap the inner loop appends every matching package. -/
theorem scanPackages_unbounded (m : Methods) (q : PackageName) (pkgs ret : List Package) :
    scanPackages m q 0 pkgs ret = (ret ++ pkgs.filter (fun p => m.PackageMatches p q), false) := by
  induction pkgs generalizing ret with
  | nil => simp [scanPackages]
  | cons p rest ih =>
    by_cases hp : m.PackageMatches p q = true
    · simp [scanPackages, hp, ih]
    · simp [scanPackages, hp, ih]

/-- With a cap `n ≥ 1` not yet reached, the inner loop stops exactly when the
`n`-th result is appended. -/
theorem scanPackages_capped (m : Methods) (q : PackageName) (n : Nat) (pkgs ret : List Package)
    (hret : ret.length < n) :
    scanPackages m q (n : Int) pkgs ret =
      ((ret ++ pkgs.filter (fun p => m.PackageMatches p q)).take n,
        decide (n ≤ (ret ++ pkgs.filter (fun p => m.PackageMatches p q)).length)) := by
  induction pkgs generalizing ret with
  | nil =>
    have h1 : ¬ n ≤ ret.length := by omega
    simp [scanPackages, h1, List.take_of_length_le (le_of_lt hret)]
  | cons p rest ih =>
    by_cases hp : m.PackageMatches p q = true
    · by_cases hcap : n ≤ ret.length + 1
      · have hn : n = ret.length + 1 := by omega
        have hne : (n : Int) ≠ 0 := by omega
        have hge : ((ret ++ [p]).length : Int) ≥ (n : Int) := by
          simp only [List.length_append, List.length_singleton]; omega
        simp only [scanPackages, hp, if_true, hne, ne_eq, not_false_eq_true, hge, and_self,
          List.filter_cons]
        have e1 : ret ++ p :: List.filter (fun p => m.PackageMatches p q) rest
            = (ret ++ [p]) ++ List.filter (fun p => m.PackageMatches p q) rest := by simp
        rw [e1, List.take_append_of_le_length (by simp [hn])]
        rw [List.take_of_length_le (by simp [hn])]
        simp [hn]
      · have hlt : (ret ++ [p]).length < n := by simp; omega
        have hnot : ¬ ((n : Int) ≠ 0 ∧ ((ret ++ [p]).length : Int) ≥ (n : Int)) := by
          intro h; have := h.2; omega
        simp only [scanPackages, hp, if_true, hnot, if_false, List.filter_cons]
        rw [ih (ret ++ [p]) hlt]
        simp
    · simp only [scanPackages, hp, List.filter_cons]
      simpa using ih ret hret


/-- Without a cap the scan of the fetchers collects the whole of `matching`. -/
theorem scanFetchers_unbounded (m : Methods) (q : PackageName) (fs : List RepositoryFetcher)
    (ret : List Package) :
    scanFetchers m q 0 fs ret = ret ++ matching m q fs := by
  induction fs generalizing ret with
  | nil => simp [scanFetchers, matching_nil]
  | cons f rest ih =>
    by_cases hf : m.FetcherMatches f q = true
    · simp [scanFetchers, hf, scanPackages_unbounded, ih, matching_cons]
    · simp [scanFetchers, hf, ih, matching_cons]

/-- With a cap `n ≥ 1` not yet reached, the scan of the fetchers returns the
first `n` elements of what it had plus `matching`. -/
theorem scanFetchers_capped (m : Methods) (q : PackageName) (n : Nat)
    (fs : List RepositoryFetcher) (ret : List Package) (hret : ret.length < n) :
    scanFetchers m q (n : Int) fs ret = (ret ++ matching m q fs).take n := by
  induction fs generalizing ret with
  | nil => simp [scanFetchers, matching_nil, List.take_of_length_le (le_of_lt hret)]
  | cons f rest ih =>
    by_cases hf : m.FetcherMatches f q = true
    · simp only [scanFetchers, hf, Bool.not_true, Bool.false_eq_true, if_false,
        scanPackages_capped m q n f.Packages ret hret, matching_cons, if_true]
      by_cases hcap : n ≤ (ret ++ f.Packages.filter (fun p => m.PackageMatches p q)).length
      · simp only [hcap, decide_True]
        rw [← List.append_assoc, List.take_append_of_le_length hcap]
      · simp only [hcap, decide_False]
        have hlen : (ret ++ f.Packages.filter (fun p => m.PackageMatches p q)).length < n := by
          omega
        rw [List.take_of_length_le (le_of_lt hlen), ih _ hlen, List.append_assoc]
    · simp only [scanFetchers, hf, Bool.not_false, if_true, matching_cons, if_false,
        Bool.false_eq_true, List.nil_append]
      exact ih ret hret

/-- The scan of `Search` in closed form, for a cap that is not negative. -/
theorem scanFetchers_eq (m : Methods) (q : PackageName) (maxResults : Int)
    (h0 : 0 ≤ maxResults) (fs : List RepositoryFetcher) :
    scanFetchers m q maxResults fs [] =
      if maxResults = 0 then matching m q fs else (matching m q fs).take maxResults.toNat := by
  by_cases hz : maxResults = 0
  · subst hz
    simp [scanFetchers_unbounded]
  · obtain ⟨n, rfl⟩ := Int.eq_ofNat_of_zero_le h0
    have hn : 0 < n := by omega
    simp only [hz, if_false, Int.toNat_ofNat]
    simpa using scanFetchers_capped m q n fs [] (by simpa using hn)

/-- With a match and a cap that is not negative, `Search` returns the scan in
closed form and no error. -/
theorem Search_of_match (m : Methods) (db : PackageDatabase)
    (query : PackageName) (maxResults : Int) (h0 : 0 ≤ maxResults)
    (hL : matching m query db.Fetchers ≠ []) :
    Search m db query maxResults =
      .ok (if maxResults = 0 then matching m query db.Fetchers
           else (matching m query db.Fetchers).take maxResults.toNat) := by
  have hscan := scanFetchers_eq m query maxResults h0 db.Fetchers
  have hne : (scanFetchers m query maxResults db.Fetchers []).length ≠ 0 := by
    rw [hscan]
    by_cases hz : maxResults = 0
    · simpa [hz] using hL
    · have hpos : 0 < maxResults.toNat := by omega
      have hlen : 0 < (matching m query db.Fetchers).length := List.length_pos.mpr hL
      simp only [hz, if_false, List.length_take]
      omega
  unfold Search
  simp only [hne, if_false]
  rw [hscan]

/-- C8: for a cap `maxResults ≥ 0` and a non-empty sequence `L` of matching
packages (fetchers in registration order, packages in list order, only
fetchers and packages that match the query), `Search` returns no error and
exactly `L` when the cap is 0 and exactly the first `min maxResults |L|`
elements of `L` otherwise; and once a prefix of the fetchers holds at least
`maxResults` matches, the result is determined by that prefix alone, no later
fetcher contributes. -/
theorem Search_returns_first_matches (m : Methods) (db : PackageDatabase)
    (query : PackageName) (maxResults : Int) (h0 : 0 ≤ maxResults)
    (hL : matching m query db.Fetchers ≠ []) :
    Search m db query maxResults =
        .ok (if maxResults = 0 then matching m query db.Fetchers
             else (matching m query db.Fetchers).take maxResults.toNat) ∧
      ((if maxResults = 0 then matching m query db.Fetchers
          else (matching m query db.Fetchers).take maxResults.toNat).length =
        if maxResults = 0 then (matching m query db.Fetchers).length
        else min maxResults.toNat (matching m query db.Fetchers).length) ∧
      ∀ before after : List RepositoryFetcher, db.Fetchers = before ++ after →
        0 < maxResults → maxResults ≤ ((matching m query before).length : Int) →
        Search m db query maxResults = .ok ((matching m query before).take maxResults.toNat) := by
  have hS := Search_of_match m db query maxResults h0 hL
  refine ⟨hS, ?_, ?_⟩
  · by_cases hz : maxResults = 0
    · simp [hz]
    · simp [hz, List.length_take]
  · intro before after hsplit hpos hcap
    rw [hS, hsplit, matching_append]
    have hz : maxResults ≠ 0 := by omega
    simp only [hz, if_false]
    rw [List.take_append_of_le_length (by omega)]

/-- The provider loop returns the answer of the first provider registered for
the distribution of the query. -/
theorem searchProvidersLoop_eq_find (q : PackageName) (k : Int) (sps : List SearchProvider) :
    searchProvidersLoop q k sps =
      match sps.find? (fun sp => decide (sp.Distribution = q.Distribution)) with
      | some sp => sp.Search q k
      | none => .ok [] := by
  induction sps with
  | nil => simp [searchProvidersLoop]
  | cons sp rest ih =>
    by_cases hd : q.Distribution = sp.Distribution
    · have hd2 : sp.Distribution = q.Distribution := hd.symm
      simp only [searchProvidersLoop, hd, ne_eq, not_true_eq_false, if_false, List.find?_cons,
        decide_True]
      cases sp.Search q k <;> rfl
    · have hd2 : ¬ sp.Distribution = q.Distribution := fun h => hd h.symm
      simp only [searchProvidersLoop, hd, ne_eq, not_false_eq_true, if_true, List.find?_cons,
        hd2, decide_False]
      exact ih

/-- A fetcher none of whose packages match leaves the result as it was. -/
theorem scanPackages_no_match (m : Methods) (q : PackageName) (k : Int)
    (pkgs ret : List Package) (h : pkgs.filter (fun p => m.PackageMatches p q) = []) :
    scanPackages m q k pkgs ret = (ret, false) := by
  induction pkgs generalizing ret with
  | nil => simp [scanPackages]
  | cons p rest ih =>
    by_cases hp : m.PackageMatches p q = true
    · simp [List.filter_cons, hp] at h
    · simp only [List.filter_cons, hp, if_false, Bool.false_eq_true] at h
      simp only [scanPackages, hp, if_false, Bool.false_eq_true]
      exact ih ret h

/-- The inner loop never loses results. -/
theorem scanPackages_ne_nil_of_ret (m : Methods) (q : PackageName) (k : Int)
    (pkgs ret : List Package) (h : ret ≠ []) :
    (scanPackages m q k pkgs ret).1 ≠ [] := by
  induction pkgs generalizing ret with
  | nil => simpa [scanPackages] using h
  | cons p rest ih =>
    by_cases hp : m.PackageMatches p q = true
    · by_cases hc : k ≠ 0 ∧ ((ret ++ [p]).length : Int) ≥ k
      · rw [scanPackages, if_pos hp, if_pos hc]
        simp
      · simp only [scanPackages, hp, hc, if_true, if_false]
        exact ih _ (by simp)
    · simp only [scanPackages, hp, if_false, Bool.false_eq_true]
      exact ih ret h

/-- A matching package makes the result of the inner loop non-empty. -/
theorem scanPackages_ne_nil_of_match (m : Methods) (q : PackageName) (k : Int)
    (pkgs ret : List Package) (h : pkgs.filter (fun p => m.PackageMatches p q) ≠ []) :
    (scanPackages m q k pkgs ret).1 ≠ [] := by
  induction pkgs generalizing ret with
  | nil => simp at h
  | cons p rest ih =>
    by_cases hp : m.PackageMatches p q = true
    · by_cases hc : k ≠ 0 ∧ ((ret ++ [p]).length : Int) ≥ k
      · rw [scanPackages, if_pos hp, if_pos hc]
        simp
      · simp only [scanPackages, hp, hc, if_true, if_false]
        exact scanPackages_ne_nil_of_ret m q k rest _ (by simp)
    · simp only [List.filter_cons, hp, if_false, Bool.false_eq_true] at h
      simp only [scanPackages, hp, if_false, Bool.false_eq_true]
      exact ih ret h

theorem scanFetchers_no_match (m : Methods) (q : PackageName) (k : Int)
    (fs : List RepositoryFetcher) (ret : List Package) (h : matching m q fs = []) :
    scanFetchers m q k fs ret = ret := by
  induction fs generalizing ret with
  | nil => simp [scanFetchers]
  | cons f rest ih =>
    rw [matching_cons] at h
    obtain ⟨h1, h2⟩ := List.append_eq_nil.mp h
    by_cases hf : m.FetcherMatches f q = true
    · simp only [hf, if_true] at h1
      simp only [scanFetchers, hf, Bool.not_true, Bool.false_eq_true, if_false,
        scanPackages_no_match m q k f.Packages ret h1]
      exact ih ret h2
    · simp only [scanFetchers, hf, Bool.not_false, if_true]
      exact ih ret h2

theorem scanFetchers_ne_nil_of_ret (m : Methods) (q : PackageName) (k : Int)
    (fs : List RepositoryFetcher) (ret : List Package) (h : ret ≠ []) :
    scanFetchers m q k fs ret ≠ [] := by
  induction fs generalizing ret with
  | nil => simpa [scanFetchers] using h
  | cons f rest ih =>
    by_cases hf : m.FetcherMatches f q = true
    · have hne := scanPackages_ne_nil_of_ret m q k f.Packages ret h
      simp only [scanFetchers, hf, Bool.not_true, Bool.false_eq_true, if_false]
      rcases hsp : scanPackages m q k f.Packages ret with ⟨r, b⟩
      rw [hsp] at hne
      cases b
      · exact ih r hne
      · exact hne
    · simp only [scanFetchers, hf, Bool.not_false, if_true]
      exact ih ret h

theorem scanFetchers_ne_nil_of_match (m : Methods) (q : PackageName) (k : Int)
    (fs : List RepositoryFetcher) (ret : List Package) (h : matching m q fs ≠ []) :
    scanFetchers m q k fs ret ≠ [] := by
  induction fs generalizing ret with
  | nil => simp [matching_nil] at h
  | cons f rest ih =>
    rw [matching_cons] at h
    by_cases hf : m.FetcherMatches f q = true
    · simp only [hf, if_true] at h
      simp only [scanFetchers, hf, Bool.not_true, Bool.false_eq_true, if_false]
      by_cases h1 : f.Packages.filter (fun p => m.PackageMatches p q) = []
      · rw [scanPackages_no_match m q k f.Packages ret h1]
        exact ih ret (by simpa [h1] using h)
      · have hne := scanPackages_ne_nil_of_match m q k f.Packages ret h1
        rcases hsp : scanPackages m q k f.Packages ret with ⟨r, b⟩
        rw [hsp] at hne
        cases b
        · exact scanFetchers_ne_nil_of_ret m q k rest r hne
        · exact hne
    · simp only [hf, if_false, Bool.false_eq_true, List.nil_append] at h
      simp only [scanFetchers, hf, Bool.not_false, if_true]
      exact ih ret h

/-- When the scan finds nothing, `Search` is the answer of the first provider
registered for the distribution of the query. -/
theorem Search_of_no_match (m : Methods) (db : PackageDatabase)
    (query : PackageName) (maxResults : Int) (h : matching m query db.Fetchers = []) :
    Search m db query maxResults =
      match db.SearchProviders.find? (fun sp => decide (sp.Distribution = query.Distribution)) with
      | some sp => sp.Search query maxResults
      | none => .ok [] := by
  unfold Search searchWithProviders
  simp only [scanFetchers_no_match m query maxResults db.Fetchers [] h, List.length_nil,
    if_true]
  exact searchProvidersLoop_eq_find query maxResults db.SearchProviders

/-- C9: the providers are consulted only when the scan of the fetchers finds
no package.  Then `Search` returns exactly the answer (packages or error) of
the callback of the first registered provider whose `Distribution` equals
`query.Distribution`, whatever providers follow it, and an empty sequence
without error when no provider has that distribution; when the scan finds a
package, the result does not depend on the registered providers. -/
theorem Search_provider_fallback (m : Methods) (db : PackageDatabase)
    (query : PackageName) (maxResults : Int) :
    (matching m query db.Fetchers = [] →
        Search m db query maxResults =
          match db.SearchProviders.find? (fun sp => decide (sp.Distribution = query.Distribution)) with
          | some sp => sp.Search query maxResults
          | none => .ok []) ∧
      (matching m query db.Fetchers ≠ [] →
        ∀ providers : List SearchProvider,
          Search m { db with SearchProviders := providers } query maxResults =
            Search m db query maxResults) := by
  constructor
  · exact Search_of_no_match m db query maxResults
  · intro h providers
    have hne := scanFetchers_ne_nil_of_match m query maxResults db.Fetchers [] h
    have hlen : (scanFetchers m query maxResults db.Fetchers []).length ≠ 0 := by
      simpa [List.length_eq_zero] using hne
    unfold Search
    simp only [hlen, if_false]

/-! ## The planner: marking and the not-found outcome -/

theorem addName_installed (m : Methods) (p : InstallationPlan) (n : PackageName) (s : String) :
    s ∈ (addName m p n).installed ↔ s ∈ p.installed ∨ s = m.ShortName n := by
  simp only [addName, Finset.mem_insert]
  tauto

theorem addName_Packages (m : Methods) (p : InstallationPlan) (n : PackageName) :
    (addName m p n).Packages = p.Packages := rfl

theorem foldl_addName_installed (m : Methods) (l : List PackageName) (p : InstallationPlan)
    (s : String) :
    s ∈ (l.foldl (addName m) p).installed ↔ s ∈ p.installed ∨ s ∈ l.map m.ShortName := by
  induction l generalizing p with
  | nil => simp
  | cons a rest ih =>
    simp only [List.foldl_cons, ih, addName_installed, List.map_cons, List.mem_cons]
    tauto

theorem foldl_addName_Packages (m : Methods) (l : List PackageName) (p : InstallationPlan) :
    (l.foldl (addName m) p).Packages = p.Packages := by
  induction l generalizing p with
  | nil => rfl
  | cons a rest ih => simp only [List.foldl_cons, ih, addName_Packages]

/-- Marking installs exactly the short names of the package. -/
theorem markPackage_installed (m : Methods) (p : InstallationPlan) (pkg : Package)
    (s : String) :
    s ∈ (markPackage m p pkg).installed ↔ s ∈ p.installed ∨ s ∈ shortNames m pkg := by
  simp only [markPackage, foldl_addName_installed, addName_installed, shortNames,
    List.mem_cons]
  tauto

theorem markPackage_Packages (m : Methods) (p : InstallationPlan) (pkg : Package) :
    (markPackage m p pkg).Packages = p.Packages := by
  simp only [markPackage, foldl_addName_Packages, addName_Packages]

theorem checkName_iff (m : Methods) (p : InstallationPlan) (q : PackageName) :
    checkName m p q = true ↔ m.ShortName q ∈ p.installed := by
  simp [checkName]

/-- The alternatives loop never returns a package-not-found error. -/
theorem addOptions_error_fatal (call : PackageName → InstallationPlan → Outcome)
    (depend opts : List PackageName) (p p1 : InstallationPlan) (e : Error)
    (h : addOptions call depend opts p = some (some e, p1)) : e.isNotFound = false := by
  induction opts generalizing p with
  | nil =>
    simp only [addOptions, Option.some.injEq, Prod.mk.injEq] at h
    rw [← h.1]; rfl
  | cons o rest ih =>
    simp only [addOptions] at h
    rcases hc : call o p with _ | ⟨_ | err, p2⟩
    · simp [hc] at h
    · simp [hc] at h
    · simp only [hc] at h
      by_cases hnf : err.isNotFound = true
      · simp only [hnf, if_true] at h
        exact ih p2 h
      · simp only [hnf, if_false, Option.some.injEq, Prod.mk.injEq, Bool.false_eq_true] at h
        rw [← h.1]; simpa using hnf

/-- The loop over the dependency groups never returns a package-not-found
error. -/
theorem addDepends_error_fatal (call : PackageName → InstallationPlan → Outcome)
    (groups : List (List PackageName)) (p p1 : InstallationPlan) (e : Error)
    (h : addDepends call groups p = some (some e, p1)) : e.isNotFound = false := by
  induction groups generalizing p with
  | nil => simp [addDepends] at h
  | cons g rest ih =>
    simp only [addDepends] at h
    rcases hc : addOptions call g g p with _ | ⟨_ | err, p2⟩
    · simp [hc] at h
    · simp only [hc] at h
      exact ih p2 h
    · simp only [hc, Option.some.injEq, Prod.mk.injEq] at h
      rw [← h.1]
      exact addOptions_error_fatal call g g p p2 err hc

/-- A call of `addPackage` that returns package-not-found has left the plan as
it was, the query was not marked installed, and `Search` missed. -/
theorem addPackage_notFound (m : Methods) (db : PackageDatabase) (fuel : Nat)
    (q : PackageName) (p p1 : InstallationPlan) (e : Error)
    (h : addPackage m db fuel q p = some (some e, p1)) (he : e.isNotFound = true) :
    p1 = p ∧ m.ShortName q ∉ p.installed ∧ Misses m db q := by
  cases fuel with
  | zero => simp [addPackage] at h
  | succ n =>
    simp only [addPackage] at h
    by_cases hc : checkName m p q = true
    · simp [hc] at h
    · have hq : m.ShortName q ∉ p.installed := fun hin => hc ((checkName_iff m p q).mpr hin)
      simp only [hc, if_false, Bool.false_eq_true] at h
      unfold Misses
      rcases hs : Search m db q 1 with err | results
      · simp only [hs, Option.some.injEq, Prod.mk.injEq] at h
        refine ⟨h.2.symm, hq, ?_⟩
        rw [h.1]; exact he
      · rcases results with _ | ⟨pkg, _ | ⟨pkg2, more⟩⟩
        · simp only [hs, Option.some.injEq, Prod.mk.injEq] at h
          exact ⟨h.2.symm, hq, trivial⟩
        · simp only [hs] at h
          rcases hd : addDepends (addPackage m db n) pkg.Depends (markPackage m p pkg)
            with _ | ⟨_ | err, p2⟩
          · simp [hd] at h
          · simp [hd] at h
          · simp only [hd, Option.some.injEq, Prod.mk.injEq] at h
            have := addDepends_error_fatal _ _ _ _ _ hd
            rw [h.1, he] at this
            exact absurd this (by simp)
        · simp only [hs, Option.some.injEq, Prod.mk.injEq] at h
          exact ⟨h.2.symm, hq, trivial⟩

/-! ## The planner: install order -/

theorem addPackage_restoring (m : Methods) (db : PackageDatabase) (fuel : Nat) :
    RestoringCall m db (addPackage m db fuel) :=
  fun o p e p1 h he => addPackage_notFound m db fuel o p p1 e h he

theorem Extends_refl (m : Methods) (p : InstallationPlan) : Extends m p p :=
  ⟨[], by simp, by simp⟩

theorem Extends_trans {m : Methods} {p p1 p2 : InstallationPlan}
    (h1 : Extends m p p1) (h2 : Extends m p1 p2) : Extends m p p2 := by
  obtain ⟨a1, hp1, hi1⟩ := h1
  obtain ⟨a2, hp2, hi2⟩ := h2
  refine ⟨a1 ++ a2, by rw [hp2, hp1, List.append_assoc], ?_⟩
  intro s
  rw [hi2, hi1]
  simp only [List.mem_append]
  constructor
  · rintro ((h | ⟨y, hy, hs⟩) | ⟨y, hy, hs⟩)
    · exact Or.inl h
    · exact Or.inr ⟨y, Or.inl hy, hs⟩
    · exact Or.inr ⟨y, Or.inr hy, hs⟩
  · rintro (h | ⟨y, hy | hy, hs⟩)
    · exact Or.inl (Or.inl h)
    · exact Or.inl (Or.inr ⟨y, hy, hs⟩)
    · exact Or.inr ⟨y, hy, hs⟩

theorem Backed_extend {m : Methods} {A : String → Prop} {p p1 : InstallationPlan}
    (hB : Backed m A p) (hE : Extends m p p1) : Backed m A p1 := by
  obtain ⟨added, hp, hi⟩ := hE
  intro s hs
  rcases (hi s).mp hs with h | ⟨y, hy, hys⟩
  · rcases hB s h with ⟨y, hy, hys⟩ | hA
    · exact Or.inl ⟨y, by rw [hp]; exact List.mem_append_left _ hy, hys⟩
    · exact Or.inr hA
  · exact Or.inl ⟨y, by rw [hp]; exact List.mem_append_right _ hy, hys⟩

theorem Backed_weaken {m : Methods} {A B : String → Prop} {p : InstallationPlan}
    (hB : Backed m A p) (hAB : ∀ s, A s → B s) : Backed m B p := by
  intro s hs
  rcases hB s hs with h | h
  · exact Or.inl h
  · exact Or.inr (hAB s h)

theorem Satisfies_append {m : Methods} {db : PackageDatabase} {l : List Package}
    {o : PackageName} (h : Satisfies m db l o) (more : List Package) :
    Satisfies m db (l ++ more) o := by
  obtain ⟨y, hy, hs⟩ := h
  exact ⟨y, List.mem_append_left _ hy, hs⟩

theorem GroupResolved_append {m : Methods} {db : PackageDatabase} {l : List Package}
    {g : List PackageName} (h : GroupResolved m db l g) (more : List Package) :
    GroupResolved m db (l ++ more) g := by
  obtain ⟨skipped, o, rest, hg, hmiss, hsat⟩ := h
  exact ⟨skipped, o, rest, hg, hmiss, Satisfies_append hsat more⟩

theorem InstallOrder_nil (m : Methods) (db : PackageDatabase) : InstallOrder m db [] := by
  intro before x after h
  simp at h

/-- Appending a package whose groups are all resolved within the sequence keeps
the install order. -/
theorem InstallOrder_concat {m : Methods} {db : PackageDatabase} {l : List Package}
    {x : Package} (hl : InstallOrder m db l)
    (hx : ∀ g ∈ x.Depends, GroupResolved m db l g) : InstallOrder m db (l ++ [x]) := by
  intro before y after hsplit g hg
  rcases List.eq_nil_or_concat after with rfl | ⟨after1, z, rfl⟩
  · have h2 : l ++ [x] = before ++ [y] := hsplit
    obtain ⟨h3, h4⟩ := List.append_inj' h2 rfl
    simp only [List.cons.injEq, and_true] at h4
    subst h3; subst h4
    exact hx g hg
  · have h2 : l ++ [x] = (before ++ y :: after1) ++ [z] := by
      rw [hsplit]; simp
    obtain ⟨h3, _⟩ := List.append_inj' h2 rfl
    exact hl before y after1 h3 g hg

theorem addOptions_order (m : Methods) (db : PackageDatabase)
    (call : PackageName → InstallationPlan → Outcome)
    (hc : OrderedCall m db call) (hr : RestoringCall m db call)
    (A : String → Prop) (depend opts : List PackageName) (p p1 : InstallationPlan)
    (hA : ∀ o ∈ opts, ∀ s, A s → Relation.TransGen (DependsOn m db) s (m.ShortName o))
    (hB : Backed m A p) (h : addOptions call depend opts p = some (none, p1)) :
    Extends m p p1 ∧ (InstallOrder m db p.Packages → InstallOrder m db p1.Packages) ∧
      GroupResolved m db p1.Packages opts := by
  induction opts generalizing p with
  | nil => simp [addOptions] at h
  | cons o rest ih =>
    simp only [addOptions] at h
    rcases hcall : call o p with _ | ⟨_ | err, p2⟩
    · simp [hcall] at h
    · simp only [hcall, Option.some.injEq, Prod.mk.injEq, true_and] at h
      subst h
      obtain ⟨hE, hO, hS⟩ := hc o p p2
        (Backed_weaken hB (fun s hs => hA o (List.mem_cons_self _ _) s hs)) hcall
      exact ⟨hE, hO, [], o, rest, rfl, by simp, hS⟩
    · simp only [hcall] at h
      by_cases hnf : err.isNotFound = true
      · simp only [hnf, if_true] at h
        obtain ⟨hp2, _, hmiss⟩ := hr o p err p2 hcall hnf
        subst hp2
        obtain ⟨hE, hO, skipped, o1, rest1, hsplit, hsk, hS⟩ :=
          ih p2 (fun o1 ho1 => hA o1 (List.mem_cons_of_mem _ ho1)) hB h
        refine ⟨hE, hO, o :: skipped, o1, rest1, by rw [hsplit]; rfl, ?_, hS⟩
        intro a ha
        rcases List.mem_cons.mp ha with rfl | ha
        · exact hmiss
        · exact hsk a ha
      · simp [hnf] at h

theorem addDepends_order (m : Methods) (db : PackageDatabase)
    (call : PackageName → InstallationPlan → Outcome)
    (hc : OrderedCall m db call) (hr : RestoringCall m db call)
    (A : String → Prop) (groups : List (List PackageName)) (p p1 : InstallationPlan)
    (hA : ∀ g ∈ groups, ∀ o ∈ g, ∀ s, A s →
      Relation.TransGen (DependsOn m db) s (m.ShortName o))
    (hB : Backed m A p) (h : addDepends call groups p = some (none, p1)) :
    Extends m p p1 ∧ (InstallOrder m db p.Packages → InstallOrder m db p1.Packages) ∧
      ∀ g ∈ groups, GroupResolved m db p1.Packages g := by
  induction groups generalizing p with
  | nil =>
    simp only [addDepends, Option.some.injEq, Prod.mk.injEq, true_and] at h
    subst h
    exact ⟨Extends_refl m p, id, by simp⟩
  | cons g rest ih =>
    simp only [addDepends] at h
    rcases hopt : addOptions call g g p with _ | ⟨_ | err, p2⟩
    · simp [hopt] at h
    · simp only [hopt] at h
      obtain ⟨hE1, hO1, hG1⟩ := addOptions_order m db call hc hr A g g p p2
        (hA g (List.mem_cons_self _ _)) hB hopt
      obtain ⟨hE2, hO2, hG2⟩ := ih p2 (fun g1 hg1 => hA g1 (List.mem_cons_of_mem _ hg1))
        (Backed_extend hB hE1) h
      refine ⟨Extends_trans hE1 hE2, fun ho => hO2 (hO1 ho), ?_⟩
      intro g1 hg1
      rcases List.mem_cons.mp hg1 with rfl | hg1
      · obtain ⟨added, hpk, _⟩ := hE2
        rw [hpk]
        exact GroupResolved_append hG1 added
      · exact hG2 g1 hg1
    · simp [hopt] at h

/-- Without a cycle among short names every successful call of `addPackage`
keeps the install order. -/
theorem addPackage_order (m : Methods) (db : PackageDatabase) (hacyc : Acyclic m db)
    (fuel : Nat) : OrderedCall m db (addPackage m db fuel) := by
  induction fuel with
  | zero =>
    intro o p p1 _ h
    simp [addPackage] at h
  | succ n ih =>
    intro o p p1 hB h
    simp only [addPackage] at h
    by_cases hck : checkName m p o = true
    · simp only [hck, if_true, Option.some.injEq, Prod.mk.injEq, true_and] at h
      subst h
      refine ⟨Extends_refl m p, id, ?_⟩
      rcases hB _ ((checkName_iff m p o).mp hck) with ⟨y, hy, hys⟩ | hcyc
      · exact ⟨y, hy, Or.inl hys⟩
      · exact absurd hcyc (hacyc _)
    · simp only [hck, if_false, Bool.false_eq_true] at h
      rcases hs : Search m db o 1 with err | results
      · simp [hs] at h
      · rcases results with _ | ⟨pkg, _ | ⟨pkg2, more⟩⟩
        · simp [hs] at h
        · simp only [hs] at h
          rcases hd : addDepends (addPackage m db n) pkg.Depends (markPackage m p pkg)
            with _ | ⟨_ | err, p2⟩
          · simp [hd] at h
          · simp only [hd, Option.some.injEq, Prod.mk.injEq, true_and] at h
            subst h
            have hstep : ∀ g ∈ pkg.Depends, ∀ o1 ∈ g, ∀ s,
                (s ∈ shortNames m pkg ∨
                  Relation.TransGen (DependsOn m db) s (m.ShortName o)) →
                Relation.TransGen (DependsOn m db) s (m.ShortName o1) := by
              intro g hg o1 ho1 s hs1
              rcases hs1 with hs1 | hs1
              · exact Relation.TransGen.single ⟨o, pkg, hs, Or.inr hs1, g, hg, o1, ho1, rfl⟩
              · exact Relation.TransGen.tail hs1 ⟨o, pkg, hs, Or.inl rfl, g, hg, o1, ho1, rfl⟩
            have hB1 : Backed m (fun s => s ∈ shortNames m pkg ∨
                Relation.TransGen (DependsOn m db) s (m.ShortName o)) (markPackage m p pkg) := by
              intro s hs1
              rw [markPackage_Packages]
              rcases (markPackage_installed m p pkg s).mp hs1 with h1 | h1
              · rcases hB s h1 with h2 | h2
                · exact Or.inl h2
                · exact Or.inr (Or.inr h2)
              · exact Or.inr (Or.inl h1)
            obtain ⟨⟨added, hpk, hin⟩, hO, hG⟩ := addDepends_order m db (addPackage m db n) ih
              (addPackage_restoring m db n) _ pkg.Depends _ p2 hstep hB1 hd
            rw [markPackage_Packages] at hpk hO
            refine ⟨⟨added ++ [pkg], by simp [hpk], ?_⟩, ?_, ?_⟩
            · intro s
              simp only [hin, markPackage_installed, List.mem_append, List.mem_singleton]
              constructor
              · rintro ((h1 | h1) | ⟨y, hy, hys⟩)
                · exact Or.inl h1
                · exact Or.inr ⟨pkg, Or.inr rfl, h1⟩
                · exact Or.inr ⟨y, Or.inl hy, hys⟩
              · rintro (h1 | ⟨y, hy | rfl, hys⟩)
                · exact Or.inl (Or.inl h1)
                · exact Or.inr ⟨y, hy, hys⟩
                · exact Or.inl (Or.inr hys)
            · intro ho
              exact InstallOrder_concat (hO ho) hG
            · exact ⟨pkg, by simp, Or.inr hs⟩
          · simp [hd] at h
        · simp [hs] at h

theorem planLoop_order (m : Methods) (db : PackageDatabase) (hacyc : Acyclic m db)
    (fuel : Nat) (names : List PackageName) (p plan : InstallationPlan)
    (hB : Backed m (fun _ => False) p) (hO : InstallOrder m db p.Packages)
    (h : planLoop m db fuel names p = some (.ok plan)) :
    InstallOrder m db plan.Packages := by
  induction names generalizing p with
  | nil =>
    simp only [planLoop, Option.some.injEq, Except.ok.injEq] at h
    subst h
    exact hO
  | cons q rest ih =>
    simp only [planLoop] at h
    rcases hc : addPackage m db fuel q p with _ | ⟨_ | err, p2⟩
    · simp [hc] at h
    · simp only [hc] at h
      obtain ⟨hE, hO2, _⟩ := addPackage_order m db hacyc fuel q p p2
        (Backed_weaken hB (fun s hs => hs.elim)) hc
      exact ih p2 (Backed_extend hB hE) (hO2 hO) h
    · simp [hc] at h

/-- In a valid install order the packages ahead of any package have their own
groups resolved ahead of it as well. -/
theorem InstallOrder_closed {m : Methods} {db : PackageDatabase} {l : List Package}
    (hl : InstallOrder m db l) (before : List Package) (x : Package) (after : List Package)
    (hsplit : l = before ++ x :: after) :
    ∀ y ∈ before, ∀ g ∈ y.Depends, GroupResolved m db before g := by
  intro y hy g hg
  obtain ⟨b1, b2, rfl⟩ := List.append_of_mem hy
  have h1 : l = b1 ++ y :: (b2 ++ x :: after) := by rw [hsplit]; simp
  exact GroupResolved_append (hl b1 y _ h1 g hg) (y :: b2)

/-- C1: when the dependency relation among short names has no cycle, the plan
of a successful `MakeInstallationPlan` is a valid install order: every package
of `plan.Packages` occurs after the package resolved for the accepted
alternative of each of its dependency groups (the alternatives ahead of the
accepted one all miss in `Search`); and the same holds of every package ahead
of it, with the resolved packages ahead of it as well, so that it occurs after
all of its transitive dependencies. -/
theorem MakeInstallationPlan_install_order (m : Methods) (db : PackageDatabase) (fuel : Nat)
    (names : List PackageName) (plan : InstallationPlan) (hacyc : Acyclic m db)
    (h : MakeInstallationPlan m db fuel names = some (.ok plan)) :
    InstallOrder m db plan.Packages ∧
      ∀ before x after, plan.Packages = before ++ x :: after →
        ∀ y ∈ before, ∀ g ∈ y.Depends, GroupResolved m db before g := by
  unfold MakeInstallationPlan at h
  have hO := planLoop_order m db hacyc fuel names ⟨∅, []⟩ plan
    (fun s hs => by simp at hs) (InstallOrder_nil m db) h
  exact ⟨hO, fun before x after hsplit => InstallOrder_closed hO before x after hsplit⟩

/-- Without search providers every package that `Search` returns is listed by
a fetcher and matches the query. -/
theorem Search_mem_of_no_providers (m : Methods) (db : PackageDatabase) (q : PackageName)
    (hprov : db.SearchProviders = []) (results : List Package)
    (h : Search m db q 1 = .ok results) :
    ∀ pkg ∈ results, (∃ f ∈ db.Fetchers, pkg ∈ f.Packages) ∧ m.PackageMatches pkg q = true := by
  intro pkg hpkg
  by_cases hL : matching m q db.Fetchers = []
  · have h2 := Search_of_no_match m db q 1 hL
    rw [hprov] at h2
    simp only [List.find?_nil] at h2
    rw [h2] at h
    simp only [Except.ok.injEq] at h
    subst h
    simp at hpkg
  · have h2 := Search_of_match m db q 1 (by decide) hL
    rw [h2] at h
    simp only [Except.ok.injEq] at h
    have hmem : pkg ∈ matching m q db.Fetchers := by
      rw [← h] at hpkg
      simp only [one_ne_zero, if_false] at hpkg
      exact List.mem_of_mem_take hpkg
    unfold matching at hmem
    simp only [List.mem_flatMap, List.mem_filter] at hmem
    obtain ⟨f, ⟨hf, _⟩, hp, hmatch⟩ := hmem
    exact ⟨⟨f, hf, hp⟩, hmatch⟩

/-- A rank that decreases along the dependency relation excludes cycles. -/
theorem Acyclic_of_rank (m : Methods) (db : PackageDatabase) (rank : String → Nat)
    (h : ∀ s t, DependsOn m db s t → rank t < rank s) : Acyclic m db := by
  have htrans : ∀ s t, Relation.TransGen (DependsOn m db) s t → rank t < rank s := by
    intro s t hst
    induction hst with
    | single h1 => exact h _ _ h1
    | tail _ h2 ih => exact lt_trans (h _ _ h2) ih
  intro s hs
  exact lt_irrefl _ (htrans s s hs)

/-- The example of the alternatives has no cycle among short names. -/
theorem dbAlternatives_acyclic : Acyclic exampleMethods dbAlternatives := by
  apply Acyclic_of_rank exampleMethods dbAlternatives (fun s => if s = "x" then 1 else 0)
  rintro s t ⟨q, pkg, hS, hs, g, hg, o, ho, rfl⟩
  obtain ⟨⟨f, hf, hp⟩, hmatch⟩ :=
    Search_mem_of_no_providers exampleMethods dbAlternatives q rfl [pkg] hS pkg (by simp)
  simp only [dbAlternatives, List.mem_singleton] at hf
  subst hf
  simp only [List.mem_cons, List.mem_singleton, List.not_mem_nil, or_false] at hp
  rcases hp with rfl | rfl
  · have hsx : s = "x" := by
      rcases hs with hs | hs
      · simp only [exampleMethods, pkgX, mkName, List.any_cons, List.any_nil, Bool.or_false,
          beq_iff_eq] at hmatch
        rw [hs]; exact hmatch.symm
      · simpa [shortNames, exampleMethods, pkgX, mkName] using hs
    simp only [pkgX, List.mem_singleton] at hg
    subst hg
    simp only [List.mem_cons, List.mem_singleton, List.not_mem_nil, or_false] at ho
    rcases ho with rfl | rfl <;> simp [hsx, exampleMethods, mkName]
  · simp [pkgZ] at hg

/-- Witness of C1 on the example of the alternatives: the database has no
cycle, the plan for `x` succeeds with `[z, x]`, and that is an install
order. -/
theorem MakeInstallationPlan_install_order_witness :
    Acyclic exampleMethods dbAlternatives ∧
      MakeInstallationPlan exampleMethods dbAlternatives 2 [mkName "x"] =
        some (.ok ⟨{"z", "x"}, [pkgZ, pkgX]⟩) ∧
      (InstallOrder exampleMethods dbAlternatives [pkgZ, pkgX] ∧
        ∀ before x after, [pkgZ, pkgX] = before ++ x :: after →
          ∀ y ∈ before, ∀ g ∈ y.Depends,
            GroupResolved exampleMethods dbAlternatives before g) :=
  ⟨dbAlternatives_acyclic, rfl,
    MakeInstallationPlan_install_order exampleMethods dbAlternatives 2 [mkName "x"]
      ⟨{"z", "x"}, [pkgZ, pkgX]⟩ dbAlternatives_acyclic rfl⟩

/-! ## Search: witnesses -/

/-- Witness of C8: with three matches over two fetchers and the cap 2, `Search`
returns the first two. -/
theorem Search_returns_first_matches_witness :
    (0 : Int) ≤ 2 ∧
      matching exampleMethods (mkName "editor") dbEditors.Fetchers = [pkgVim, pkgNano, pkgEmacs] ∧
      Search exampleMethods dbEditors (mkName "editor") 2 = .ok [pkgVim, pkgNano] :=
  ⟨by decide, rfl,
    ( Search_returns_first_matches exampleMethods dbEditors (mkName "editor") 2 (by decide)
      (by rw [show matching exampleMethods (mkName "editor") dbEditors.Fetchers =
          [pkgVim, pkgNano, pkgEmacs] from rfl]; simp)).1⟩

/-- Witness of C9: without fetchers the first provider registered for the
distribution of the query answers. -/
theorem Search_provider_fallback_witness :
    matching exampleMethods (mkName "anything") dbProviders.Fetchers = [] ∧
      Search exampleMethods dbProviders (mkName "anything") 1 = .ok [pkgVim] :=
  ⟨rfl, (Search_provider_fallback exampleMethods dbProviders (mkName "anything") 1).1 rfl⟩

/-! ## The planner: the cycle example -/

/-- C7: fetcher A lists `foo` depending on `[[bar]]`, fetcher B lists `bar`
depending on `[[foo]]`, no aliases (each package matching the query for its
own name, `foo` not matching the query for `bar`, the two short names
distinct): `MakeInstallationPlan([foo])` returns no error, and `plan.Packages`
is exactly `[bar, foo]`, for every recursion bound of at least 3. -/
theorem MakeInstallationPlan_cycle (m : Methods) (db : PackageDatabase)
    (fetcherA fetcherB : RepositoryFetcher) (foo bar : Package) (n : Nat)
    (hdb : db.Fetchers = [fetcherA, fetcherB])
    (hA : fetcherA.Packages = [foo]) (hB : fetcherB.Packages = [bar])
    (hfoo : foo.Aliases = [] ∧ foo.Depends = [[bar.Name]])
    (hbar : bar.Aliases = [] ∧ bar.Depends = [[foo.Name]])
    (hfA : m.FetcherMatches fetcherA foo.Name = true)
    (hfB : m.FetcherMatches fetcherB bar.Name = true)
    (hmfoo : m.PackageMatches foo foo.Name = true)
    (hmbar : m.PackageMatches bar bar.Name = true)
    (hmiss : m.PackageMatches foo bar.Name = false)
    (hne : m.ShortName foo.Name ≠ m.ShortName bar.Name) :
    MakeInstallationPlan m db (n + 3) [foo.Name] =
      some (.ok ⟨{m.ShortName bar.Name, m.ShortName foo.Name}, [bar, foo]⟩) := by
  have hSfoo : Search m db foo.Name 1 = .ok [foo] := by
    simp [Search, hdb, scanFetchers, hfA, hA, scanPackages, hmfoo]
  have hSbar : Search m db bar.Name 1 = .ok [bar] := by
    by_cases hfA2 : m.FetcherMatches fetcherA bar.Name = true
    · simp [Search, hdb, scanFetchers, hfA2, hfB, hA, hB, scanPackages, hmiss, hmbar]
    · simp [Search, hdb, scanFetchers, hfA2, hfB, hB, scanPackages, hmbar]
  have hne2 : m.ShortName bar.Name ≠ m.ShortName foo.Name := fun h => hne h.symm
  simp [MakeInstallationPlan, planLoop, addPackage, checkName, hSfoo, hSbar, markPackage,
    addName, hfoo.1, hfoo.2, hbar.1, hbar.2, addDepends, addOptions, hne, hne2]

/-- Witness of C7: the example database evaluates to `[bar, foo]`. -/
theorem MakeInstallationPlan_cycle_witness :
    MakeInstallationPlan exampleMethods dbCycle 3 [mkName "foo"] =
      some (.ok ⟨{"bar", "foo"}, [pkgBar, pkgFoo]⟩) :=
  MakeInstallationPlan_cycle exampleMethods dbCycle ⟨"", [pkgFoo]⟩ ⟨"", [pkgBar]⟩ pkgFoo pkgBar 0
    rfl rfl rfl ⟨rfl, rfl⟩ ⟨rfl, rfl⟩ rfl rfl rfl rfl rfl (by decide)

/-! ## The planner: no package twice -/

theorem Fresh_refl (m : Methods) (p : InstallationPlan) : Fresh m p p :=
  ⟨Finset.Subset.refl _, fun _ hy => Or.inl hy⟩

theorem Fresh_trans {m : Methods} {p p1 p2 : InstallationPlan}
    (h1 : Fresh m p p1) (h2 : Fresh m p1 p2) : Fresh m p p2 := by
  refine ⟨Finset.Subset.trans h1.1 h2.1, ?_⟩
  intro y hy
  rcases h2.2 y hy with h | ⟨s, hs, hns⟩
  · exact h1.2 y h
  · exact Or.inr ⟨s, hs, fun hin => hns (h1.1 hin)⟩

theorem addOptions_sound (m : Methods) (call : PackageName → InstallationPlan → Outcome)
    (hc : SoundCall m call) (depend opts : List PackageName) (p p1 : InstallationPlan)
    (r : Option Error) (hS : Sound m p) (h : addOptions call depend opts p = some (r, p1)) :
    Sound m p1 ∧ Fresh m p p1 := by
  induction opts generalizing p with
  | nil =>
    simp only [addOptions, Option.some.injEq, Prod.mk.injEq] at h
    rw [← h.2]
    exact ⟨hS, Fresh_refl m p⟩
  | cons o rest ih =>
    simp only [addOptions] at h
    rcases hcall : call o p with _ | ⟨_ | err, p2⟩
    · simp [hcall] at h
    · simp only [hcall, Option.some.injEq, Prod.mk.injEq] at h
      rw [← h.2]
      obtain ⟨h1, h2, _⟩ := hc o p none p2 hS hcall
      exact ⟨h1, h2⟩
    · simp only [hcall] at h
      obtain ⟨h1, h2, _⟩ := hc o p (some err) p2 hS hcall
      by_cases hnf : err.isNotFound = true
      · simp only [hnf, if_true] at h
        obtain ⟨h3, h4⟩ := ih p2 h1 h
        exact ⟨h3, Fresh_trans h2 h4⟩
      · simp only [hnf, if_false, Option.some.injEq, Prod.mk.injEq, Bool.false_eq_true] at h
        rw [← h.2]
        exact ⟨h1, h2⟩

theorem addDepends_sound (m : Methods) (call : PackageName → InstallationPlan → Outcome)
    (hc : SoundCall m call) (groups : List (List PackageName)) (p p1 : InstallationPlan)
    (r : Option Error) (hS : Sound m p) (h : addDepends call groups p = some (r, p1)) :
    Sound m p1 ∧ Fresh m p p1 := by
  induction groups generalizing p with
  | nil =>
    simp only [addDepends, Option.some.injEq, Prod.mk.injEq] at h
    rw [← h.2]
    exact ⟨hS, Fresh_refl m p⟩
  | cons g rest ih =>
    simp only [addDepends] at h
    rcases hopt : addOptions call g g p with _ | ⟨_ | err, p2⟩
    · simp [hopt] at h
    · simp only [hopt] at h
      obtain ⟨h1, h2⟩ := addOptions_sound m call hc g g p p2 none hS hopt
      obtain ⟨h3, h4⟩ := ih p2 h1 h
      exact ⟨h3, Fresh_trans h2 h4⟩
    · simp only [hopt, Option.some.injEq, Prod.mk.injEq] at h
      rw [← h.2]
      exact addOptions_sound m call hc g g p p2 (some err) hS hopt

/-- When `Search` answers to the names it is asked for, every call of
`addPackage` keeps the output free of duplicates, and a successful call leaves
the short name of its query installed. -/
theorem addPackage_sound (m : Methods) (db : PackageDatabase) (hans : Answers m db)
    (fuel : Nat) : SoundCall m (addPackage m db fuel) := by
  induction fuel with
  | zero =>
    intro o p r p1 _ h
    simp [addPackage] at h
  | succ n ih =>
    intro o p r p1 hS h
    simp only [addPackage] at h
    by_cases hck : checkName m p o = true
    · simp only [hck, if_true, Option.some.injEq, Prod.mk.injEq] at h
      rw [← h.2]
      exact ⟨hS, Fresh_refl m p, fun _ => (checkName_iff m p o).mp hck⟩
    · have hq : m.ShortName o ∉ p.installed := fun hin => hck ((checkName_iff m p o).mpr hin)
      simp only [hck, if_false, Bool.false_eq_true] at h
      rcases hs : Search m db o 1 with err | results
      · simp only [hs, Option.some.injEq, Prod.mk.injEq] at h
        rw [← h.2, ← h.1]
        exact ⟨hS, Fresh_refl m p, fun hr => by simp at hr⟩
      · rcases results with _ | ⟨pkg, _ | ⟨pkg2, more⟩⟩
        · simp only [hs, Option.some.injEq, Prod.mk.injEq] at h
          rw [← h.2, ← h.1]
          exact ⟨hS, Fresh_refl m p, fun hr => by simp at hr⟩
        · simp only [hs] at h
          have hname : m.ShortName o ∈ shortNames m pkg := hans o pkg hs
          have hS1 : Sound m (markPackage m p pkg) := by
            refine ⟨by rw [markPackage_Packages]; exact hS.1, ?_⟩
            intro y hy s hsy
            rw [markPackage_Packages] at hy
            exact (markPackage_installed m p pkg s).mpr (Or.inl (hS.2 y hy s hsy))
          have hF1 : Fresh m p (markPackage m p pkg) := by
            refine ⟨fun s hs1 => (markPackage_installed m p pkg s).mpr (Or.inl hs1), ?_⟩
            intro y hy
            rw [markPackage_Packages] at hy
            exact Or.inl hy
          rcases hd : addDepends (addPackage m db n) pkg.Depends (markPackage m p pkg)
            with _ | ⟨_ | err, p2⟩
          · simp [hd] at h
          · simp only [hd, Option.some.injEq, Prod.mk.injEq, true_and] at h
            obtain ⟨hS2, hF2⟩ := addDepends_sound m _ ih pkg.Depends _ p2 none hS1 hd
            have hmarked : ∀ s ∈ shortNames m pkg, s ∈ p2.installed := fun s hs1 =>
              hF2.1 ((markPackage_installed m p pkg s).mpr (Or.inr hs1))
            have hnot : pkg ∉ p2.Packages := by
              intro hin
              rcases hF2.2 pkg hin with h1 | ⟨s, hs1, hns⟩
              · rw [markPackage_Packages] at h1
                exact hq (hS.2 pkg h1 _ hname)
              · exact hns ((markPackage_installed m p pkg s).mpr (Or.inr hs1))
            have hF : Fresh m p p2 := Fresh_trans hF1 hF2
            rw [← h.2]
            refine ⟨⟨?_, ?_⟩, ⟨hF.1, ?_⟩, fun _ => hmarked _ hname⟩
            · refine List.Nodup.append hS2.1 (List.nodup_singleton pkg) ?_
              intro a ha ha2
              rw [List.mem_singleton.mp ha2] at ha
              exact hnot ha
            · intro y hy s hsy
              rcases List.mem_append.mp hy with hy | hy
              · exact hS2.2 y hy s hsy
              · rw [List.mem_singleton.mp hy] at hsy
                exact hmarked s hsy
            · intro y hy
              rcases List.mem_append.mp hy with hy | hy
              · exact hF.2 y hy
              · rw [List.mem_singleton.mp hy]
                exact Or.inr ⟨_, hname, hq⟩
          · simp only [hd, Option.some.injEq, Prod.mk.injEq] at h
            obtain ⟨hS2, hF2⟩ := addDepends_sound m _ ih pkg.Depends _ p2 (some err) hS1 hd
            rw [← h.2, ← h.1]
            exact ⟨hS2, Fresh_trans hF1 hF2, fun hr => by simp at hr⟩
        · simp only [hs, Option.some.injEq, Prod.mk.injEq] at h
          rw [← h.2, ← h.1]
          exact ⟨hS, Fresh_refl m p, fun hr => by simp at hr⟩

theorem planLoop_sound (m : Methods) (db : PackageDatabase) (hans : Answers m db)
    (fuel : Nat) (names : List PackageName) (p plan : InstallationPlan)
    (hS : Sound m p) (h : planLoop m db fuel names p = some (.ok plan)) : Sound m plan := by
  induction names generalizing p with
  | nil =>
    simp only [planLoop, Option.some.injEq, Except.ok.injEq] at h
    rw [← h]; exact hS
  | cons q rest ih =>
    simp only [planLoop] at h
    rcases hc : addPackage m db fuel q p with _ | ⟨_ | err, p2⟩
    · simp [hc] at h
    · simp only [hc] at h
      exact ih p2 (addPackage_sound m db hans fuel q p none p2 hS hc).1 h
    · simp [hc] at h

theorem addOptions_grows (call : PackageName → InstallationPlan → Outcome)
    (hc : GrowingCall call) (depend opts : List PackageName) (p p1 : InstallationPlan)
    (r : Option Error) (h : addOptions call depend opts p = some (r, p1)) :
    p.installed ⊆ p1.installed := by
  induction opts generalizing p with
  | nil =>
    simp only [addOptions, Option.some.injEq, Prod.mk.injEq] at h
    rw [← h.2]
  | cons o rest ih =>
    simp only [addOptions] at h
    rcases hcall : call o p with _ | ⟨_ | err, p2⟩
    · simp [hcall] at h
    · simp only [hcall, Option.some.injEq, Prod.mk.injEq] at h
      rw [← h.2]
      exact hc o p none p2 hcall
    · simp only [hcall] at h
      have h1 := hc o p (some err) p2 hcall
      by_cases hnf : err.isNotFound = true
      · simp only [hnf, if_true] at h
        exact Finset.Subset.trans h1 (ih p2 h)
      · simp only [hnf, if_false, Option.some.injEq, Prod.mk.injEq, Bool.false_eq_true] at h
        rw [← h.2]
        exact h1

theorem addDepends_grows (call : PackageName → InstallationPlan → Outcome)
    (hc : GrowingCall call) (groups : List (List PackageName)) (p p1 : InstallationPlan)
    (r : Option Error) (h : addDepends call groups p = some (r, p1)) :
    p.installed ⊆ p1.installed := by
  induction groups generalizing p with
  | nil =>
    simp only [addDepends, Option.some.injEq, Prod.mk.injEq] at h
    rw [← h.2]
  | cons g rest ih =>
    simp only [addDepends] at h
    rcases hopt : addOptions call g g p with _ | ⟨_ | err, p2⟩
    · simp [hopt] at h
    · simp only [hopt] at h
      exact Finset.Subset.trans (addOptions_grows call hc g g p p2 none hopt) (ih p2 h)
    · simp only [hopt, Option.some.injEq, Prod.mk.injEq] at h
      rw [← h.2]
      exact addOptions_grows call hc g g p p2 (some err) hopt

/-- The installed set only grows along `addPackage`, whatever the outcome. -/
theorem addPackage_grows (m : Methods) (db : PackageDatabase) (fuel : Nat) :
    GrowingCall (addPackage m db fuel) := by
  induction fuel with
  | zero =>
    intro o p r p1 h
    simp [addPackage] at h
  | succ n ih =>
    intro o p r p1 h
    simp only [addPackage] at h
    by_cases hck : checkName m p o = true
    · simp only [hck, if_true, Option.some.injEq, Prod.mk.injEq] at h
      rw [← h.2]
    · simp only [hck, if_false, Bool.false_eq_true] at h
      rcases hs : Search m db o 1 with err | results
      · simp only [hs, Option.some.injEq, Prod.mk.injEq] at h
        rw [← h.2]
      · rcases results with _ | ⟨pkg, _ | ⟨pkg2, more⟩⟩
        · simp only [hs, Option.some.injEq, Prod.mk.injEq] at h
          rw [← h.2]
        · simp only [hs] at h
          have h0 : p.installed ⊆ (markPackage m p pkg).installed :=
            fun s hs1 => (markPackage_installed m p pkg s).mpr (Or.inl hs1)
          rcases hd : addDepends (addPackage m db n) pkg.Depends (markPackage m p pkg)
            with _ | ⟨_ | err, p2⟩
          · simp [hd] at h
          · simp only [hd, Option.some.injEq, Prod.mk.injEq] at h
            rw [← h.2]
            exact Finset.Subset.trans h0 (addDepends_grows _ ih _ _ p2 none hd)
          · simp only [hd, Option.some.injEq, Prod.mk.injEq] at h
            rw [← h.2]
            exact Finset.Subset.trans h0 (addDepends_grows _ ih _ _ p2 (some err) hd)
        · simp only [hs, Option.some.injEq, Prod.mk.injEq] at h
          rw [← h.2]

/-- When `Search` answers to the names it is asked for, a successful call of
`addPackage` leaves the short name of its query installed. -/
theorem addPackage_marks_query (m : Methods) (db : PackageDatabase) (hans : Answers m db)
    (fuel : Nat) (q : PackageName) (p p1 : InstallationPlan)
    (h : addPackage m db fuel q p = some (none, p1)) : m.ShortName q ∈ p1.installed := by
  cases fuel with
  | zero => simp [addPackage] at h
  | succ n =>
    simp only [addPackage] at h
    by_cases hck : checkName m p q = true
    · simp only [hck, if_true, Option.some.injEq, Prod.mk.injEq, true_and] at h
      rw [← h]
      exact (checkName_iff m p q).mp hck
    · simp only [hck, if_false, Bool.false_eq_true] at h
      rcases hs : Search m db q 1 with err | results
      · simp [hs] at h
      · rcases results with _ | ⟨pkg, _ | ⟨pkg2, more⟩⟩
        · simp [hs] at h
        · simp only [hs] at h
          rcases hd : addDepends (addPackage m db n) pkg.Depends (markPackage m p pkg)
            with _ | ⟨_ | err, p2⟩
          · simp [hd] at h
          · simp only [hd, Option.some.injEq, Prod.mk.injEq, true_and] at h
            rw [← h]
            exact addDepends_grows _ (addPackage_grows m db n) _ _ p2 none hd
              ((markPackage_installed m p pkg _).mpr (Or.inr (hans q pkg hs)))
          · simp [hd] at h
        · simp [hs] at h

/-- The example methods match a package only on the short name of its primary
name or of an alias, so a database without providers answers to the names it is
asked for. -/
theorem Answers_exampleMethods (db : PackageDatabase) (hprov : db.SearchProviders = []) :
    Answers exampleMethods db := by
  intro q pkg hS
  obtain ⟨_, hmatch⟩ := Search_mem_of_no_providers exampleMethods db q hprov [pkg] hS pkg
    (by simp)
  simp only [exampleMethods, List.any_eq_true, beq_iff_eq] at hmatch
  obtain ⟨a, ha, hq⟩ := hmatch
  simp only [shortNames, exampleMethods, List.mem_cons, List.mem_map]
  rcases List.mem_cons.mp ha with rfl | ha
  · exact Or.inl hq.symm
  · exact Or.inr ⟨a, ha, hq⟩

/-- C2 as the code has it, counterexample: a search provider that answers the
name `vi` with the package `vim` (which does not carry the short name `vi`) has
the package appended by every call for `vi`; the plan for `[vi, vi]` succeeds
and holds `vim` twice. -/
theorem MakeInstallationPlan_duplicate :
    ∃ plan, MakeInstallationPlan exampleMethods dbProviders 1 [mkName "vi", mkName "vi"] =
        some (.ok plan) ∧ plan.Packages = [pkgVim, pkgVim] ∧ ¬ plan.Packages.Nodup :=
  ⟨_, rfl, rfl, by decide⟩

/-- C2, amended: when every package that `Search` returns for a name carries
the short name of that name (as primary name or alias), the plan of a
successful `MakeInstallationPlan` holds no package twice, and after a
successful `addPackage` for a name a repeated call for that name returns no
error and leaves the plan, its output sequence included, as it is. -/
theorem MakeInstallationPlan_no_duplicates (m : Methods) (db : PackageDatabase)
    (hans : Answers m db) :
    (∀ fuel names plan, MakeInstallationPlan m db fuel names = some (.ok plan) →
        plan.Packages.Nodup) ∧
      ∀ fuel q p p1, addPackage m db fuel q p = some (none, p1) →
        ∀ again, addPackage m db (again + 1) q p1 = some (none, p1) := by
  constructor
  · intro fuel names plan h
    unfold MakeInstallationPlan at h
    exact (planLoop_sound m db hans fuel names ⟨∅, []⟩ plan
      ⟨List.nodup_nil, fun y hy => by simp at hy⟩ h).1
  · intro fuel q p p1 h again
    have hin := addPackage_marks_query m db hans fuel q p p1 h
    simp [addPackage, (checkName_iff m p1 q).mpr hin]

/-- Witness of the amended C2 on the diamond: `base` is reached through `left`
and through `right` and is appended once. -/
theorem MakeInstallationPlan_no_duplicates_witness :
    Answers exampleMethods dbDiamond ∧
      MakeInstallationPlan exampleMethods dbDiamond 3 [mkName "top"] =
        some (.ok ⟨{"right", "base", "left", "top"}, [pkgBase, pkgLeft, pkgRight, pkgTop]⟩) ∧
      [pkgBase, pkgLeft, pkgRight, pkgTop].Nodup :=
  ⟨Answers_exampleMethods dbDiamond rfl, rfl,
    (MakeInstallationPlan_no_duplicates exampleMethods dbDiamond
      (Answers_exampleMethods dbDiamond rfl)).1 3 [mkName "top"]
      ⟨{"right", "base", "left", "top"}, [pkgBase, pkgLeft, pkgRight, pkgTop]⟩ rfl⟩

/-! ## The planner: termination -/

/-- A larger installed set leaves fewer short names of `U` to install. -/
theorem card_sdiff_installed_le (U : Finset String) {A B : Finset String} (h : A ⊆ B) :
    (U \ B).card ≤ (U \ A).card :=
  Finset.card_le_card (Finset.sdiff_subset_sdiff (Finset.Subset.refl U) h)

theorem addOptions_total (U : Finset String) (k : Nat)
    (call : PackageName → InstallationPlan → Outcome)
    (hg : GrowingCall call) (ht : TotalCall U k call)
    (depend opts : List PackageName) (p : InstallationPlan)
    (hk : (U \ p.installed).card < k) : ∃ r, addOptions call depend opts p = some r := by
  induction opts generalizing p with
  | nil => exact ⟨_, rfl⟩
  | cons o rest ih =>
    obtain ⟨⟨r, p2⟩, hcall⟩ := ht o p hk
    simp only [addOptions, hcall]
    rcases r with _ | err
    · exact ⟨_, rfl⟩
    · by_cases hnf : err.isNotFound = true
      · simp only [hnf, if_true]
        exact ih p2 (lt_of_le_of_lt (card_sdiff_installed_le U (hg o p _ p2 hcall)) hk)
      · simp only [hnf, if_false, Bool.false_eq_true]
        exact ⟨_, rfl⟩

theorem addDepends_total (U : Finset String) (k : Nat)
    (call : PackageName → InstallationPlan → Outcome)
    (hg : GrowingCall call) (ht : TotalCall U k call)
    (groups : List (List PackageName)) (p : InstallationPlan)
    (hk : (U \ p.installed).card < k) : ∃ r, addDepends call groups p = some r := by
  induction groups generalizing p with
  | nil => exact ⟨_, rfl⟩
  | cons g rest ih =>
    obtain ⟨⟨r, p2⟩, hopt⟩ := addOptions_total U k call hg ht g g p hk
    simp only [addDepends, hopt]
    rcases r with _ | err
    · exact ih p2 (lt_of_le_of_lt
        (card_sdiff_installed_le U (addOptions_grows call hg g g p p2 none hopt)) hk)
    · exact ⟨_, rfl⟩

/-- When `Search` answers to the names it is asked for and the resolved
packages carry short names of a finite set `U`, a call of `addPackage` returns
as soon as the bound on the depth exceeds the number of short names of `U`
that are not yet installed. -/
theorem addPackage_total (m : Methods) (db : PackageDatabase) (U : Finset String)
    (hans : Answers m db) (hU : Bounded m db U) (fuel : Nat) :
    TotalCall U fuel (addPackage m db fuel) := by
  induction fuel with
  | zero =>
    intro o p hk
    exact absurd hk (Nat.not_lt_zero _)
  | succ n ih =>
    intro o p hk
    simp only [addPackage]
    by_cases hck : checkName m p o = true
    · simp only [hck, if_true]
      exact ⟨_, rfl⟩
    · have hq : m.ShortName o ∉ p.installed := fun hin => hck ((checkName_iff m p o).mpr hin)
      simp only [hck, if_false, Bool.false_eq_true]
      rcases hs : Search m db o 1 with err | results
      · exact ⟨_, rfl⟩
      · rcases results with _ | ⟨pkg, _ | ⟨pkg2, more⟩⟩
        · exact ⟨_, rfl⟩
        · have hname : m.ShortName o ∈ shortNames m pkg := hans o pkg hs
          have hinU : m.ShortName o ∈ U := hU o pkg hs _ hname
          have hlt : (U \ (markPackage m p pkg).installed).card < (U \ p.installed).card := by
            apply Finset.card_lt_card
            refine Finset.ssubset_iff_of_subset
              (Finset.sdiff_subset_sdiff (Finset.Subset.refl U)
                (fun s hs1 => (markPackage_installed m p pkg s).mpr (Or.inl hs1))) |>.mpr ?_
            refine ⟨m.ShortName o, Finset.mem_sdiff.mpr ⟨hinU, hq⟩, ?_⟩
            intro hmem
            exact (Finset.mem_sdiff.mp hmem).2
              ((markPackage_installed m p pkg _).mpr (Or.inr hname))
          obtain ⟨⟨r, p2⟩, hd⟩ := addDepends_total U n (addPackage m db n)
            (addPackage_grows m db n) ih pkg.Depends (markPackage m p pkg) (by omega)
          simp only [hd]
          rcases r with _ | err
          · exact ⟨_, rfl⟩
          · exact ⟨_, rfl⟩
        · exact ⟨_, rfl⟩

theorem planLoop_total (m : Methods) (db : PackageDatabase) (U : Finset String)
    (hans : Answers m db) (hU : Bounded m db U) (fuel : Nat) (hfuel : U.card < fuel)
    (names : List PackageName) (p : InstallationPlan) :
    ∃ r, planLoop m db fuel names p = some r := by
  induction names generalizing p with
  | nil => exact ⟨_, rfl⟩
  | cons q rest ih =>
    have hk : (U \ p.installed).card < fuel :=
      lt_of_le_of_lt (Finset.card_le_card Finset.sdiff_subset) hfuel
    obtain ⟨⟨r, p2⟩, hc⟩ := addPackage_total m db U hans hU fuel q p hk
    simp only [planLoop, hc]
    rcases r with _ | err
    · exact ih p2
    · exact ⟨_, rfl⟩

/-- The provider of `dbLoop` answers the name `e` with the package `v`, which
depends on `e` again: no bound on the depth is enough. -/
theorem addPackage_dbLoop (n : Nat) (p : InstallationPlan) (h : "e" ∉ p.installed) :
    addPackage exampleMethods dbLoop n (mkName "e") p = none := by
  induction n generalizing p with
  | zero => rfl
  | succ k ih =>
    have hck : checkName exampleMethods p (mkName "e") = false := by
      simpa [checkName, exampleMethods, mkName] using h
    have hS : Search exampleMethods dbLoop (mkName "e") 1 = .ok [pkgLoop] := rfl
    have hnext : "e" ∉ (markPackage exampleMethods p pkgLoop).installed := by
      rw [markPackage_installed]
      simp [shortNames, exampleMethods, pkgLoop, mkName, h]
    simp only [addPackage, hck, hS, Bool.false_eq_true, if_false]
    have hd : addDepends (addPackage exampleMethods dbLoop k) pkgLoop.Depends
        (markPackage exampleMethods p pkgLoop) = none := by
      have hcall := ih _ hnext
      simp only [show pkgLoop.Depends = [[mkName "e"]] from rfl, addDepends, addOptions, hcall]
    rw [hd]

/-- C3 as the code has it, counterexample: the database `dbLoop` offers a
single package, with the short name `v`, and yet the recursion of `addPackage`
for the name `e` does not terminate: whatever the bound on the depth, the plan
for `[e]` runs out of it. -/
theorem MakeInstallationPlan_diverges :
    Bounded exampleMethods dbLoop {"v"} ∧
      ∀ fuel, MakeInstallationPlan exampleMethods dbLoop fuel [mkName "e"] = none := by
  constructor
  · intro q pkg hS s hs
    have hpkg : pkg = pkgLoop := by
      simp only [Search, dbLoop, scanFetchers, List.length_nil, if_true, searchWithProviders,
        searchProvidersLoop] at hS
      split at hS
      · simp at hS
      · simp only [Except.ok.injEq, List.cons.injEq, and_true] at hS
        exact hS.symm
    subst hpkg
    simpa [shortNames, exampleMethods, pkgLoop, mkName] using hs
  · intro fuel
    simp [MakeInstallationPlan, planLoop, addPackage_dbLoop fuel ⟨∅, []⟩ (by simp)]

/-- C3, amended: when every package that `Search` returns for a name carries
the short name of that name (as primary name or alias) and the short names of
the packages `Search` can return lie in a finite set `U`, the recursion of
`addPackage` terminates, cycles included: with a bound on the depth above the
size of `U`, every call of `addPackage` and every `MakeInstallationPlan`
returns. -/
theorem addPackage_terminates (m : Methods) (db : PackageDatabase) (U : Finset String)
    (hans : Answers m db) (hU : Bounded m db U) (fuel : Nat) (hfuel : U.card < fuel) :
    (∀ q p, ∃ r, addPackage m db fuel q p = some r) ∧
      ∀ names, ∃ r, MakeInstallationPlan m db fuel names = some r := by
  constructor
  · intro q p
    exact addPackage_total m db U hans hU fuel q p
      (lt_of_le_of_lt (Finset.card_le_card Finset.sdiff_subset) hfuel)
  · intro names
    exact planLoop_total m db U hans hU fuel hfuel names ⟨∅, []⟩

/-- Without search providers the packages that `Search` can return are those
of the fetchers: finitely many. -/
theorem Bounded_of_no_providers (m : Methods) (db : PackageDatabase)
    (hprov : db.SearchProviders = []) : Bounded m db (fetchedShortNames m db) := by
  intro q pkg hS s hs
  obtain ⟨⟨f, hf, hp⟩, _⟩ := Search_mem_of_no_providers m db q hprov [pkg] hS pkg (by simp)
  simp only [fetchedShortNames, List.mem_toFinset, List.mem_flatMap]
  exact ⟨pkg, ⟨f, hf, hp⟩, hs⟩

/-- Witness of the amended C3 on the cycle example: `foo` and `bar` depend on
each other and every call returns within the depth 3. -/
theorem addPackage_terminates_witness :
    Answers exampleMethods dbCycle ∧
      Bounded exampleMethods dbCycle (fetchedShortNames exampleMethods dbCycle) ∧
      (fetchedShortNames exampleMethods dbCycle).card < 3 ∧
      ((∀ q p, ∃ r, addPackage exampleMethods dbCycle 3 q p = some r) ∧
        ∀ names, ∃ r, MakeInstallationPlan exampleMethods dbCycle 3 names = some r) :=
  ⟨Answers_exampleMethods dbCycle rfl, Bounded_of_no_providers exampleMethods dbCycle rfl,
    by decide,
    addPackage_terminates exampleMethods dbCycle (fetchedShortNames exampleMethods dbCycle)
      (Answers_exampleMethods dbCycle rfl) (Bounded_of_no_providers exampleMethods dbCycle rfl)
      3 (by decide)⟩

/-! ## The planner: the outcome of the identity resolution -/

/-- C6 as the code has it, counterexample: the provider of `dbAmbiguous`
returns two packages for the name `amb`; `addPackage` reports that as
package-not-found, the same recoverable kind as for no package, and the group
`[[amb, z]]` of `q` goes on to its next alternative: the plan for `[q]`
succeeds. -/
theorem addPackage_ambiguous_is_not_found :
    Search exampleMethods dbAmbiguous (mkName "amb") 1 = .ok [pkgVim, pkgNano] ∧
      addPackage exampleMethods dbAmbiguous 1 (mkName "amb") ⟨∅, []⟩ =
        some (some (.ErrPackageNotFound (mkName "amb")), ⟨∅, []⟩) ∧
      (Error.ErrPackageNotFound (mkName "amb")).isNotFound = true ∧
      MakeInstallationPlan exampleMethods dbAmbiguous 2 [mkName "q"] =
        some (.ok ⟨{"z", "q"}, [pkgZ, pkgQ]⟩) :=
  ⟨rfl, rfl, rfl, rfl⟩

/-- C6, amended: for a name not yet marked installed, when `Search(name, 1)`
returns a number of packages other than one, none or more than one,
`addPackage` fails with the package-not-found error carrying exactly that name
and leaves the plan as it is; the failure is of the recoverable kind, so an
enclosing dependency group goes on to its next alternative. -/
theorem addPackage_not_one_result (m : Methods) (db : PackageDatabase) (fuel : Nat)
    (q : PackageName) (p : InstallationPlan) (results : List Package)
    (hq : checkName m p q = false) (hS : Search m db q 1 = .ok results)
    (hlen : results.length ≠ 1) :
    addPackage m db (fuel + 1) q p = some (some (.ErrPackageNotFound q), p) ∧
      ∀ depend rest, addOptions (addPackage m db (fuel + 1)) depend (q :: rest) p =
        addOptions (addPackage m db (fuel + 1)) depend rest p := by
  have h1 : addPackage m db (fuel + 1) q p = some (some (.ErrPackageNotFound q), p) := by
    rcases results with _ | ⟨pkg, _ | ⟨pkg2, more⟩⟩
    · simp [addPackage, hq, hS]
    · simp at hlen
    · simp [addPackage, hq, hS]
  refine ⟨h1, ?_⟩
  intro depend rest
  simp [addOptions, h1, Error.isNotFound]

/-- Witness of the amended C6: the provider returns two packages for `amb`. -/
theorem addPackage_not_one_result_witness :
    checkName exampleMethods ⟨∅, []⟩ (mkName "amb") = false ∧
      Search exampleMethods dbAmbiguous (mkName "amb") 1 = .ok [pkgVim, pkgNano] ∧
      [pkgVim, pkgNano].length ≠ 1 ∧
      (addPackage exampleMethods dbAmbiguous 1 (mkName "amb") ⟨∅, []⟩ =
          some (some (.ErrPackageNotFound (mkName "amb")), ⟨∅, []⟩) ∧
        ∀ depend rest,
          addOptions (addPackage exampleMethods dbAmbiguous 1) depend (mkName "amb" :: rest)
              ⟨∅, []⟩ =
            addOptions (addPackage exampleMethods dbAmbiguous 1) depend rest ⟨∅, []⟩) :=
  ⟨rfl, rfl, by decide,
    addPackage_not_one_result exampleMethods dbAmbiguous 0 (mkName "amb") ⟨∅, []⟩
      [pkgVim, pkgNano] rfl rfl (by decide)⟩

/-! ## The planner: the first alternative that is found -/

theorem addOptions_appends (call : PackageName → InstallationPlan → Outcome)
    (hc : AppendingCall call) (depend opts : List PackageName) (p p1 : InstallationPlan)
    (r : Option Error) (h : addOptions call depend opts p = some (r, p1)) :
    ∃ added, p1.Packages = p.Packages ++ added := by
  induction opts generalizing p with
  | nil =>
    simp only [addOptions, Option.some.injEq, Prod.mk.injEq] at h
    exact ⟨[], by rw [← h.2]; simp⟩
  | cons o rest ih =>
    simp only [addOptions] at h
    rcases hcall : call o p with _ | ⟨_ | err, p2⟩
    · simp [hcall] at h
    · simp only [hcall, Option.some.injEq, Prod.mk.injEq] at h
      rw [← h.2]
      exact hc o p none p2 hcall
    · simp only [hcall] at h
      obtain ⟨a1, h1⟩ := hc o p (some err) p2 hcall
      by_cases hnf : err.isNotFound = true
      · simp only [hnf, if_true] at h
        obtain ⟨a2, h2⟩ := ih p2 h
        exact ⟨a1 ++ a2, by rw [h2, h1, List.append_assoc]⟩
      · simp only [hnf, if_false, Option.some.injEq, Prod.mk.injEq, Bool.false_eq_true] at h
        rw [← h.2]
        exact ⟨a1, h1⟩

theorem addDepends_appends (call : PackageName → InstallationPlan → Outcome)
    (hc : AppendingCall call) (groups : List (List PackageName)) (p p1 : InstallationPlan)
    (r : Option Error) (h : addDepends call groups p = some (r, p1)) :
    ∃ added, p1.Packages = p.Packages ++ added := by
  induction groups generalizing p with
  | nil =>
    simp only [addDepends, Option.some.injEq, Prod.mk.injEq] at h
    exact ⟨[], by rw [← h.2]; simp⟩
  | cons g rest ih =>
    simp only [addDepends] at h
    rcases hopt : addOptions call g g p with _ | ⟨_ | err, p2⟩
    · simp [hopt] at h
    · simp only [hopt] at h
      obtain ⟨a1, h1⟩ := addOptions_appends call hc g g p p2 none hopt
      obtain ⟨a2, h2⟩ := ih p2 h
      exact ⟨a1 ++ a2, by rw [h2, h1, List.append_assoc]⟩
    · simp only [hopt, Option.some.injEq, Prod.mk.injEq] at h
      rw [← h.2]
      exact addOptions_appends call hc g g p p2 (some err) hopt

/-- The output sequence only grows at its end along `addPackage`, whatever the
outcome. -/
theorem addPackage_appends (m : Methods) (db : PackageDatabase) (fuel : Nat) :
    AppendingCall (addPackage m db fuel) := by
  induction fuel with
  | zero =>
    intro o p r p1 h
    simp [addPackage] at h
  | succ n ih =>
    intro o p r p1 h
    simp only [addPackage] at h
    by_cases hck : checkName m p o = true
    · simp only [hck, if_true, Option.some.injEq, Prod.mk.injEq] at h
      exact ⟨[], by rw [← h.2]; simp⟩
    · simp only [hck, if_false, Bool.false_eq_true] at h
      rcases hs : Search m db o 1 with err | results
      · simp only [hs, Option.some.injEq, Prod.mk.injEq] at h
        exact ⟨[], by rw [← h.2]; simp⟩
      · rcases results with _ | ⟨pkg, _ | ⟨pkg2, more⟩⟩
        · simp only [hs, Option.some.injEq, Prod.mk.injEq] at h
          exact ⟨[], by rw [← h.2]; simp⟩
        · simp only [hs] at h
          rcases hd : addDepends (addPackage m db n) pkg.Depends (markPackage m p pkg)
            with _ | ⟨_ | err, p2⟩
          · simp [hd] at h
          · simp only [hd, Option.some.injEq, Prod.mk.injEq] at h
            obtain ⟨a1, h1⟩ := addDepends_appends _ ih _ _ p2 none hd
            rw [markPackage_Packages] at h1
            exact ⟨a1 ++ [pkg], by rw [← h.2]; simp [h1]⟩
          · simp only [hd, Option.some.injEq, Prod.mk.injEq] at h
            obtain ⟨a1, h1⟩ := addDepends_appends _ ih _ _ p2 (some err) hd
            rw [markPackage_Packages] at h1
            exact ⟨a1, by rw [← h.2]; exact h1⟩
        · simp only [hs, Option.some.injEq, Prod.mk.injEq] at h
          exact ⟨[], by rw [← h.2]; simp⟩

/-- The alternatives loop accepts the first alternative that does not fail,
when those ahead of it fail with package-not-found: what follows it in the
group plays no part. -/
theorem addOptions_accepts (m : Methods) (db : PackageDatabase)
    (call : PackageName → InstallationPlan → Outcome) (hr : RestoringCall m db call)
    (depend skipped : List PackageName) (a : PackageName) (later : List PackageName)
    (p p2 : InstallationPlan)
    (hskip : ∀ b ∈ skipped, ∃ e pb, call b p = some (some e, pb) ∧ e.isNotFound = true)
    (ha : call a p = some (none, p2)) :
    addOptions call depend (skipped ++ a :: later) p = some (none, p2) := by
  induction skipped with
  | nil => simp [addOptions, ha]
  | cons b rest ih =>
    obtain ⟨e, pb, hb, he⟩ := hskip b (List.mem_cons_self _ _)
    obtain ⟨hpb, _, _⟩ := hr b p e pb hb he
    subst hpb
    simp only [List.cons_append, addOptions, hb, he, if_true]
    exact ih (fun b1 hb1 => hskip b1 (List.mem_cons_of_mem _ hb1))

/-- The loop over the groups, cut in two. -/
theorem addDepends_append (call : PackageName → InstallationPlan → Outcome)
    (done rest : List (List PackageName)) (p p1 : InstallationPlan)
    (h : addDepends call done p = some (none, p1)) :
    addDepends call (done ++ rest) p = addDepends call rest p1 := by
  induction done generalizing p with
  | nil =>
    simp only [addDepends, Option.some.injEq, Prod.mk.injEq, true_and] at h
    rw [h]; rfl
  | cons g gs ih =>
    simp only [addDepends] at h
    rcases hopt : addOptions call g g p with _ | ⟨_ | err, p2⟩
    · simp [hopt] at h
    · simp only [hopt] at h
      simp only [List.cons_append, addDepends, hopt]
      exact ih p2 h
    · simp [hopt] at h

/-- A successful call of `addPackage` for a name that was not marked installed
has resolved the name and appended the resolved package last. -/
theorem addPackage_resolved_last (m : Methods) (db : PackageDatabase) (fuel : Nat)
    (q : PackageName) (p p1 : InstallationPlan) (hq : checkName m p q = false)
    (h : addPackage m db fuel q p = some (none, p1)) :
    ∃ y l, Search m db q 1 = .ok [y] ∧ p1.Packages = l ++ [y] := by
  cases fuel with
  | zero => simp [addPackage] at h
  | succ n =>
    simp only [addPackage, hq, Bool.false_eq_true, if_false] at h
    rcases hs : Search m db q 1 with err | results
    · simp [hs] at h
    · rcases results with _ | ⟨pkg, _ | ⟨pkg2, more⟩⟩
      · simp [hs] at h
      · simp only [hs] at h
        rcases hd : addDepends (addPackage m db n) pkg.Depends (markPackage m p pkg)
          with _ | ⟨_ | err, p2⟩
        · simp [hd] at h
        · simp only [hd, Option.some.injEq, Prod.mk.injEq, true_and] at h
          exact ⟨pkg, p2.Packages, rfl, by rw [← h]⟩
        · simp [hd] at h
      · simp [hs] at h

/-- C4 as the code has it, counterexample: in the cycle example the group
`[[foo]]` of `bar` is tried when `foo` is already marked installed; `addPackage`
does not fail on `foo`, the group is satisfied, and yet the package resolved
for `foo` is not in `plan.Packages` before `bar`: the plan is `[bar, foo]`. -/
theorem addPackage_accepts_marked_name :
    pkgBar.Depends = [[mkName "foo"]] ∧
      addPackage exampleMethods dbCycle 1 (mkName "foo")
          (markPackage exampleMethods (markPackage exampleMethods ⟨∅, []⟩ pkgFoo) pkgBar) =
        some (none,
          markPackage exampleMethods (markPackage exampleMethods ⟨∅, []⟩ pkgFoo) pkgBar) ∧
      Search exampleMethods dbCycle (mkName "foo") 1 = .ok [pkgFoo] ∧
      MakeInstallationPlan exampleMethods dbCycle 3 [mkName "foo"] =
        some (.ok ⟨{"bar", "foo"}, [pkgBar, pkgFoo]⟩) ∧
      ¬ ∃ before after, [pkgBar, pkgFoo] = before ++ pkgBar :: after ∧ pkgFoo ∈ before := by
  refine ⟨rfl, rfl, rfl, rfl, ?_⟩
  rintro ⟨before, after, h, hmem⟩
  rcases before with _ | ⟨b, bs⟩
  · simp at hmem
  · rcases bs with _ | ⟨c, cs⟩
    · simp only [List.cons_append, List.nil_append, List.cons.injEq] at h
      exact absurd h.2.1 (by decide)
    · simp at h

/-- C4, amended: let `x` be the package resolved for a name, with a dependency
group whose alternatives ahead of `a` fail with package-not-found and on whose
alternative `a` `addPackage` does not fail (the groups ahead of it and after it
being satisfied).  Then the group is satisfied by `a` with the plan that the
call for `a` left, whatever alternatives follow `a` (they are not tried), no
not-found error is surfaced, `x` is resolved and appended last, and, if the
short name of `a` was not already marked installed when `a` was tried, the
package that `Search` resolves `a` to is in `plan.Packages` before `x`. -/
theorem addPackage_first_found_alternative (m : Methods) (db : PackageDatabase) (n : Nat)
    (qx : PackageName) (x : Package) (p : InstallationPlan)
    (done : List (List PackageName)) (skipped : List PackageName) (a : PackageName)
    (later : List PackageName) (todo : List (List PackageName))
    (p1 p2 p3 : InstallationPlan)
    (hx1 : checkName m p qx = false) (hx2 : Search m db qx 1 = .ok [x])
    (hdep : x.Depends = done ++ (skipped ++ a :: later) :: todo)
    (hdone : addDepends (addPackage m db n) done (markPackage m p x) = some (none, p1))
    (hskip : ∀ b ∈ skipped, ∃ e pb,
      addPackage m db n b p1 = some (some e, pb) ∧ e.isNotFound = true)
    (ha : addPackage m db n a p1 = some (none, p2))
    (htodo : addDepends (addPackage m db n) todo p2 = some (none, p3)) :
    (∀ depend others,
        addOptions (addPackage m db n) depend (skipped ++ a :: others) p1 = some (none, p2)) ∧
      addPackage m db (n + 1) qx p =
        some (none, { p3 with Packages := p3.Packages ++ [x] }) ∧
      (checkName m p1 a = false →
        ∃ y before between, Search m db a 1 = .ok [y] ∧
          p3.Packages ++ [x] = before ++ y :: (between ++ [x])) := by
  have hopt : ∀ depend others,
      addOptions (addPackage m db n) depend (skipped ++ a :: others) p1 = some (none, p2) :=
    fun depend others => addOptions_accepts m db _ (addPackage_restoring m db n) depend
      skipped a others p1 p2 hskip ha
  refine ⟨hopt, ?_, ?_⟩
  · have h1 : addDepends (addPackage m db n) x.Depends (markPackage m p x) =
        some (none, p3) := by
      rw [hdep, addDepends_append _ done _ _ p1 hdone]
      simp only [addDepends, hopt _ later]
      exact htodo
    simp only [addPackage, hx1, Bool.false_eq_true, if_false, hx2, h1]
  · intro hq
    obtain ⟨y, l, hy, hl⟩ := addPackage_resolved_last m db n a p1 p2 hq ha
    obtain ⟨added, hadd⟩ := addDepends_appends _ (addPackage_appends m db n) todo p2 p3 none htodo
    exact ⟨y, l, added, hy, by rw [hadd, hl]; simp⟩

/-- Witness of the amended C4: `x` depends on `[[y, z]]`, `y` is absent and `z`
present; the call for `y` reports package-not-found, the call for `z` succeeds,
and the plan for `x` is `[z, x]`. -/
theorem addPackage_first_found_alternative_witness :
    addPackage exampleMethods dbAlternatives 1 (mkName "y")
        (markPackage exampleMethods ⟨∅, []⟩ pkgX) =
      some (some (.ErrPackageNotFound (mkName "y")), markPackage exampleMethods ⟨∅, []⟩ pkgX) ∧
    ((∀ depend others,
        addOptions (addPackage exampleMethods dbAlternatives 1) depend
          ([mkName "y"] ++ mkName "z" :: others) (markPackage exampleMethods ⟨∅, []⟩ pkgX) =
        some (none, ⟨{"z", "x"}, [pkgZ]⟩)) ∧
      addPackage exampleMethods dbAlternatives 2 (mkName "x") ⟨∅, []⟩ =
        some (none, ⟨{"z", "x"}, [pkgZ] ++ [pkgX]⟩) ∧
      (checkName exampleMethods (markPackage exampleMethods ⟨∅, []⟩ pkgX) (mkName "z") = false →
        ∃ y before between, Search exampleMethods dbAlternatives (mkName "z") 1 = .ok [y] ∧
          [pkgZ] ++ [pkgX] = before ++ y :: (between ++ [pkgX]))) :=
  ⟨rfl,
    addPackage_first_found_alternative exampleMethods dbAlternatives 1 (mkName "x") pkgX ⟨∅, []⟩
      [] [mkName "y"] (mkName "z") [] [] (markPackage exampleMethods ⟨∅, []⟩ pkgX)
      ⟨{"z", "x"}, [pkgZ]⟩ ⟨{"z", "x"}, [pkgZ]⟩ rfl rfl rfl rfl
      (by
        intro b hb
        rw [List.mem_singleton.mp hb]
        exact ⟨_, _, rfl, rfl⟩)
      rfl rfl⟩

/-! ## The planner: a group without candidate -/

/-- A group all of whose alternatives fail with package-not-found ends the
alternatives loop with the error that names the group. -/
theorem addOptions_exhausted (m : Methods) (db : PackageDatabase)
    (call : PackageName → InstallationPlan → Outcome) (hr : RestoringCall m db call)
    (depend opts : List PackageName) (p : InstallationPlan)
    (hall : ∀ a ∈ opts, ∃ e pa, call a p = some (some e, pa) ∧ e.isNotFound = true) :
    addOptions call depend opts p = some (some (.noCandidate depend), p) := by
  induction opts with
  | nil => rfl
  | cons a rest ih =>
    obtain ⟨e, pa, hcall, he⟩ := hall a (List.mem_cons_self _ _)
    obtain ⟨hpa, _, _⟩ := hr a p e pa hcall he
    subst hpa
    simp only [addOptions, hcall, he, if_true]
    exact ih (fun b hb => hall b (List.mem_cons_of_mem _ hb))

/-- An error that is not package-not-found ends the alternatives loop at the
alternative that returns it. -/
theorem addOptions_fatal (m : Methods) (db : PackageDatabase)
    (call : PackageName → InstallationPlan → Outcome) (hr : RestoringCall m db call)
    (depend skipped : List PackageName) (a : PackageName) (later : List PackageName)
    (p pf : InstallationPlan) (err : Error)
    (hskip : ∀ b ∈ skipped, ∃ e pb, call b p = some (some e, pb) ∧ e.isNotFound = true)
    (ha : call a p = some (some err, pf)) (herr : err.isNotFound = false) :
    addOptions call depend (skipped ++ a :: later) p = some (some err, pf) := by
  induction skipped with
  | nil => simp [addOptions, ha, herr]
  | cons b rest ih =>
    obtain ⟨e, pb, hb, he⟩ := hskip b (List.mem_cons_self _ _)
    obtain ⟨hpb, _, _⟩ := hr b p e pb hb he
    subst hpb
    simp only [List.cons_append, addOptions, hb, he, if_true]
    exact ih (fun b1 hb1 => hskip b1 (List.mem_cons_of_mem _ hb1))

/-- A group without candidate makes the call of `addPackage` that meets it,
at whatever depth, return the error that names the group. -/
theorem Exhausts_addPackage (m : Methods) (db : PackageDatabase) (fuel : Nat)
    (q : PackageName) (p : InstallationPlan) (g : List PackageName) (pf : InstallationPlan)
    (h : Exhausts m db fuel q p g pf) :
    addPackage m db fuel q p = some (some (.noCandidate g), pf) := by
  induction h with
  | atPackage n q p pkg done g todo p1 hq hS hdep hdone hall =>
    have hopt := addOptions_exhausted m db _ (addPackage_restoring m db n) g g p1 hall
    have hd : addDepends (addPackage m db n) pkg.Depends (markPackage m p pkg) =
        some (some (.noCandidate g), p1) := by
      rw [hdep, addDepends_append _ done _ _ p1 hdone]
      simp only [addDepends, hopt]
    simp only [addPackage, hq, Bool.false_eq_true, if_false, hS, hd]
  | underAlternative n q p pkg done skipped a later todo p1 g pf hq hS hdep hdone hskip _ ih =>
    have hopt := addOptions_fatal m db _ (addPackage_restoring m db n)
      (skipped ++ a :: later) skipped a later p1 pf (.noCandidate g) hskip ih rfl
    have hd : addDepends (addPackage m db n) pkg.Depends (markPackage m p pkg) =
        some (some (.noCandidate g), pf) := by
      rw [hdep, addDepends_append _ done _ _ p1 hdone]
      simp only [addDepends, hopt]
    simp only [addPackage, hq, Bool.false_eq_true, if_false, hS, hd]

/-- The loop over the requested names, cut in two. -/
theorem planLoop_append (m : Methods) (db : PackageDatabase) (fuel : Nat)
    (before rest : List PackageName) (p0 p : InstallationPlan)
    (h : planLoop m db fuel before p0 = some (.ok p)) :
    planLoop m db fuel (before ++ rest) p0 = planLoop m db fuel rest p := by
  induction before generalizing p0 with
  | nil =>
    simp only [planLoop, Option.some.injEq, Except.ok.injEq] at h
    rw [h]; rfl
  | cons q qs ih =>
    simp only [planLoop] at h
    rcases hc : addPackage m db fuel q p0 with _ | ⟨_ | err, p2⟩
    · simp [hc] at h
    · simp only [hc] at h
      simp only [List.cons_append, planLoop, hc]
      exact ih p2 h
    · simp [hc] at h

/-- C5: if during the resolution of a requested name every alternative of some
dependency group fails with package-not-found (a group without alternative
included), at whatever depth below the requested name, `MakeInstallationPlan`
returns an error and no plan; the error names the group and is not of the
package-not-found kind, and a group that has the requested name as an
alternative does not go on to its next alternative but returns that error. -/
theorem MakeInstallationPlan_no_candidate (m : Methods) (db : PackageDatabase) (fuel : Nat)
    (before : List PackageName) (q : PackageName) (after : List PackageName)
    (p : InstallationPlan) (g : List PackageName) (pf : InstallationPlan)
    (hbefore : MakeInstallationPlan m db fuel before = some (.ok p))
    (hex : Exhausts m db fuel q p g pf) :
    MakeInstallationPlan m db fuel (before ++ q :: after) =
        some (.error (.noCandidate g)) ∧
      (Error.noCandidate g).isNotFound = false ∧
      ∀ depend rest, addOptions (addPackage m db fuel) depend (q :: rest) p =
        some (some (.noCandidate g), pf) := by
  have hcall := Exhausts_addPackage m db fuel q p g pf hex
  refine ⟨?_, rfl, ?_⟩
  · unfold MakeInstallationPlan at hbefore ⊢
    rw [planLoop_append m db fuel before _ _ p hbefore]
    simp only [planLoop, hcall]
  · intro depend rest
    simp [addOptions, hcall, Error.isNotFound]

/-- Witness of C5: `a` depends on `b`, whose group `[[c, d]]` has no candidate;
the plan for `[a, b]` fails with the error that names the group. -/
theorem MakeInstallationPlan_no_candidate_witness :
    Exhausts exampleMethods dbMissing 3 (mkName "a") ⟨∅, []⟩ [mkName "c", mkName "d"]
        (markPackage exampleMethods (markPackage exampleMethods ⟨∅, []⟩ pkgA) pkgB) ∧
      (MakeInstallationPlan exampleMethods dbMissing 3 ([] ++ mkName "a" :: [mkName "b"]) =
          some (.error (.noCandidate [mkName "c", mkName "d"])) ∧
        (Error.noCandidate [mkName "c", mkName "d"]).isNotFound = false ∧
        ∀ depend rest,
          addOptions (addPackage exampleMethods dbMissing 3) depend (mkName "a" :: rest) ⟨∅, []⟩ =
            some (some (.noCandidate [mkName "c", mkName "d"]),
              markPackage exampleMethods (markPackage exampleMethods ⟨∅, []⟩ pkgA) pkgB)) :=
  have hex : Exhausts exampleMethods dbMissing 3 (mkName "a") ⟨∅, []⟩ [mkName "c", mkName "d"]
      (markPackage exampleMethods (markPackage exampleMethods ⟨∅, []⟩ pkgA) pkgB) :=
    Exhausts.underAlternative 2 (mkName "a") ⟨∅, []⟩ pkgA [] [] (mkName "b") [] []
      (markPackage exampleMethods ⟨∅, []⟩ pkgA) _ _ rfl rfl rfl rfl (by simp)
      (Exhausts.atPackage 1 (mkName "b") _ pkgB [] _ [] _ rfl rfl rfl rfl
        (by
          intro a ha
          simp only [List.mem_cons, List.mem_singleton, List.not_mem_nil, or_false] at ha
          rcases ha with rfl | rfl
          · exact ⟨_, _, rfl, rfl⟩
          · exact ⟨_, _, rfl, rfl⟩))
  ⟨hex, MakeInstallationPlan_no_candidate exampleMethods dbMissing 3 [] (mkName "a")
    [mkName "b"] ⟨∅, []⟩ _ _ rfl hex⟩

/-! ## The planner: a rejected alternative leaves no trace -/

/-- C16: whenever `addPackage` returns an error of the package-not-found kind,
the installed set and the `Packages` sequence of the plan are exactly what they
were before the call; so the alternatives loop tries the next alternative from
the very plan it had when it tried the rejected one. -/
theorem addPackage_notFound_restores (m : Methods) (db : PackageDatabase) (fuel : Nat)
    (q : PackageName) (p p1 : InstallationPlan) (e : Error)
    (h : addPackage m db fuel q p = some (some e, p1)) (he : e.isNotFound = true) :
    p1.installed = p.installed ∧ p1.Packages = p.Packages ∧
      ∀ depend rest, addOptions (addPackage m db fuel) depend (q :: rest) p =
        addOptions (addPackage m db fuel) depend rest p := by
  obtain ⟨hp, _, _⟩ := addPackage_notFound m db fuel q p p1 e h he
  subst hp
  refine ⟨rfl, rfl, ?_⟩
  intro depend rest
  simp only [addOptions, h, he, if_true]

/-- Witness of C16: in the example of the alternatives, the call for the absent
`y`, made with `x` already marked installed, reports package-not-found and
leaves the plan as it was. -/
theorem addPackage_notFound_restores_witness :
    addPackage exampleMethods dbAlternatives 1 (mkName "y")
        (markPackage exampleMethods ⟨∅, []⟩ pkgX) =
      some (some (.ErrPackageNotFound (mkName "y")), markPackage exampleMethods ⟨∅, []⟩ pkgX) ∧
    ((markPackage exampleMethods ⟨∅, []⟩ pkgX).installed =
        (markPackage exampleMethods ⟨∅, []⟩ pkgX).installed ∧
      (markPackage exampleMethods ⟨∅, []⟩ pkgX).Packages =
        (markPackage exampleMethods ⟨∅, []⟩ pkgX).Packages ∧
      ∀ depend rest,
        addOptions (addPackage exampleMethods dbAlternatives 1) depend (mkName "y" :: rest)
            (markPackage exampleMethods ⟨∅, []⟩ pkgX) =
          addOptions (addPackage exampleMethods dbAlternatives 1) depend rest
            (markPackage exampleMethods ⟨∅, []⟩ pkgX)) :=
  ⟨rfl, addPackage_notFound_restores exampleMethods dbAlternatives 1 (mkName "y")
    (markPackage exampleMethods ⟨∅, []⟩ pkgX) (markPackage exampleMethods ⟨∅, []⟩ pkgX)
    (.ErrPackageNotFound (mkName "y")) rfl rfl⟩

/-! ## Bulk fetch: the index after a successful `FetchAll` -/

theorem indexPackages_append (m : Methods) (index : String → Option Package)
    (l1 l2 : List Package) :
    indexPackages m index (l1 ++ l2) = indexPackages m (indexPackages m index l1) l2 := by
  simp [indexPackages, List.foldl_append]

/-- After the writes of a sequence of packages, a key holds the last package of
that name in the sequence, or what it held before when there is none. -/
theorem indexPackages_apply (m : Methods) (index : String → Option Package)
    (pkgs : List Package) (k : String) :
    indexPackages m index pkgs k =
      match lastNamed m k pkgs with
      | some pkg => some pkg
      | none => index k := by
  induction pkgs using List.reverseRecOn with
  | nil => simp [indexPackages, lastNamed]
  | append_singleton ps p ih =>
    rw [indexPackages_append]
    by_cases hk : m.NameString p.Name = k
    · have h1 : lastNamed m k (ps ++ [p]) = some p := by
        simp [lastNamed, List.filter_append, hk, List.getLast?_concat]
      have h2 : indexPackages m (indexPackages m index ps) [p] k = some p := by
        simp [indexPackages, mapSet, hk]
      rw [h1, h2]
    · have h1 : lastNamed m k (ps ++ [p]) = lastNamed m k ps := by
        simp [lastNamed, List.filter_append, hk]
      have hk2 : ¬ k = m.NameString p.Name := fun h => hk h.symm
      have h2 : indexPackages m (indexPackages m index ps) [p] k = indexPackages m index ps k := by
        simp [indexPackages, mapSet, hk2]
      rw [h1, h2, ih]

theorem foldl_indexPackages (m : Methods) (fetchers : List RepositoryFetcher)
    (index : String → Option Package) :
    fetchers.foldl (fun acc fetcher => indexPackages m acc fetcher.Packages) index =
      indexPackages m index (fetchers.flatMap (fun f => f.Packages)) := by
  induction fetchers generalizing index with
  | nil => simp [indexPackages]
  | cons f rest ih =>
    simp only [List.foldl_cons, List.flatMap_cons, indexPackages_append]
    exact ih _

/-- The rebuilt index holds, under every key, the last package of that name
over the fetchers in registration order and their lists in order. -/
theorem rebuildIndex_apply (m : Methods) (fetchers : List RepositoryFetcher) (k : String) :
    rebuildIndex m fetchers k = lastNamed m k (fetchers.flatMap (fun f => f.Packages)) := by
  unfold rebuildIndex
  rw [foldl_indexPackages, indexPackages_apply]
  cases lastNamed m k (fetchers.flatMap (fun f => f.Packages)) <;> rfl

/-- A `FetchAll` that returns no error has rebuilt the index from the fetchers
as they then are. -/
theorem FetchAll_returned_nil (m : Methods) (db : PackageDatabase) (schedule : List Nat)
    (db1 : PackageDatabase) (h : FetchAll m db schedule = .returned none db1) :
    db1.packageMap = rebuildIndex m db1.Fetchers := by
  unfold FetchAll at h
  split at h
  · simp at h
  · split at h
    · simp only [FetchAllOutcome.returned.injEq, true_and] at h
      rw [← h]
    · simp at h

/-- C10: after `FetchAll` returns no error, `Get(k)` finds, for every key `k`,
the last package whose `Name.String()` equals `k` over the fetchers in
registration order and their `Packages` in order; it finds a package if and
only if some fetcher's current `Packages` contains one of that name; and a key
that no fetcher lists, whatever the index held for it before the call, is not
found. -/
theorem FetchAll_rebuilds_index (m : Methods) (db : PackageDatabase) (schedule : List Nat)
    (db1 : PackageDatabase) (h : FetchAll m db schedule = .returned none db1) (k : String) :
    Get db1 k = lastNamed m k (db1.Fetchers.flatMap (fun f => f.Packages)) ∧
      ((∃ pkg, Get db1 k = some pkg) ↔
        ∃ f ∈ db1.Fetchers, ∃ pkg ∈ f.Packages, m.NameString pkg.Name = k) ∧
      ((∀ f ∈ db1.Fetchers, ∀ pkg ∈ f.Packages, m.NameString pkg.Name ≠ k) →
        Get db1 k = none) := by
  have hget : Get db1 k = lastNamed m k (db1.Fetchers.flatMap (fun f => f.Packages)) := by
    unfold Get
    rw [FetchAll_returned_nil m db schedule db1 h, rebuildIndex_apply]
  have hiff : (∃ pkg, Get db1 k = some pkg) ↔
      ∃ f ∈ db1.Fetchers, ∃ pkg ∈ f.Packages, m.NameString pkg.Name = k := by
    rw [hget]
    unfold lastNamed
    constructor
    · rintro ⟨pkg, hpkg⟩
      have hmem : pkg ∈ (db1.Fetchers.flatMap (fun f => f.Packages)).filter
          (fun pkg => m.NameString pkg.Name = k) := List.mem_of_getLast?_eq_some hpkg
      simp only [List.mem_filter, List.mem_flatMap, decide_eq_true_eq] at hmem
      obtain ⟨⟨f, hf, hp⟩, hk⟩ := hmem
      exact ⟨f, hf, pkg, hp, hk⟩
    · rintro ⟨f, hf, pkg, hp, hk⟩
      have hne : (db1.Fetchers.flatMap (fun f => f.Packages)).filter
          (fun pkg => m.NameString pkg.Name = k) ≠ [] := by
        apply List.ne_nil_of_mem (a := pkg)
        simp only [List.mem_filter, List.mem_flatMap, decide_eq_true_eq]
        exact ⟨⟨f, hf, hp⟩, hk⟩
      rcases hl : ((db1.Fetchers.flatMap (fun f => f.Packages)).filter
          (fun pkg => m.NameString pkg.Name = k)).getLast? with _ | x
      · exact absurd (List.getLast?_eq_none_iff.mp hl) hne
      · exact ⟨x, hl⟩
  refine ⟨hget, hiff, ?_⟩
  intro hnone
  rcases hg : Get db1 k with _ | pkg
  · rfl
  · obtain ⟨f, hf, pkg1, hp, hk⟩ := hiff.mp ⟨pkg, hg⟩
    exact absurd hk (hnone f hf pkg1 hp)

/-- Witness of C10: both fetchers list a package named `vim` and the index held
an entry that no fetcher lists; after `FetchAll` the key of `vim` holds the
package of the second fetcher and the stale key is gone. -/
theorem FetchAll_rebuilds_index_witness :
    FetchAll exampleMethods dbStale [1, 0] =
        .returned none { dbStale with packageMap := rebuildIndex exampleMethods dbStale.Fetchers } ∧
      dbStale.packageMap "/gone//" = some pkgNano ∧
      Get { dbStale with packageMap := rebuildIndex exampleMethods dbStale.Fetchers } "/gone//" =
        none ∧
      Get { dbStale with packageMap := rebuildIndex exampleMethods dbStale.Fetchers } "/vim//" =
        some pkgVimNew :=
  ⟨rfl, rfl,
    (FetchAll_rebuilds_index exampleMethods dbStale [1, 0]
      { dbStale with packageMap := rebuildIndex exampleMethods dbStale.Fetchers } rfl "/gone//").1,
    rfl⟩

/-! ## Bulk fetch: one fetcher fails -/

theorem fetchOne_of_failure (m : Methods) (force : Bool) (f f1 : RepositoryFetcher)
    (cause : String) (h : m.fetchWithKey f (m.Key f) force = (f1, some cause)) :
    fetchOne m force f = (f1, some (.failedToLoad (m.FetcherString f1) cause)) := by
  simp [fetchOne, h]

theorem fetchOne_of_success (m : Methods) (force : Bool) (g : RepositoryFetcher)
    (h : (m.fetchWithKey g (m.Key g) force).2 = none) :
    ∃ g1, fetchOne m force g = (g1, none) := by
  rcases hf : m.fetchWithKey g (m.Key g) force with ⟨g1, _ | cause⟩
  · exact ⟨g1, by simp [fetchOne, hf]⟩
  · rw [hf] at h
    simp at h

/-- The sequential loop stops with the wrapped failure at the first fetcher
that fails. -/
theorem fetchSequential_fails (m : Methods) (force : Bool) (fetchers : List RepositoryFetcher)
    (i : Nat) (f f1 : RepositoryFetcher) (cause : String) (wg : Nat)
    (hi : fetchers[i]? = some f)
    (hfail : m.fetchWithKey f (m.Key f) force = (f1, some cause))
    (hothers : ∀ j g, j ≠ i → fetchers[j]? = some g →
      (m.fetchWithKey g (m.Key g) force).2 = none) :
    ∃ fs wg1, fetchSequential m force fetchers wg =
      (fs, wg1, some (.failedToLoad (m.FetcherString f1) cause)) := by
  induction fetchers generalizing i wg with
  | nil => simp at hi
  | cons g rest ih =>
    cases i with
    | zero =>
      simp only [List.getElem?_cons_zero, Option.some.injEq] at hi
      subst hi
      exact ⟨f1 :: rest, wg + 1,
        by simp [fetchSequential, fetchOne_of_failure m force g f1 cause hfail]⟩
    | succ k =>
      simp only [List.getElem?_cons_succ] at hi
      obtain ⟨g1, hg⟩ := fetchOne_of_success m force g
        (hothers 0 g (by omega) (by simp))
      obtain ⟨fs, wg1, hrest⟩ := ih k (wg + 1) hi
        (fun j g2 hj hg2 => hothers (j + 1) g2 (by omega) (by simpa using hg2))
      exact ⟨g1 :: fs, wg1, by simp [fetchSequential, hg, hrest]⟩

/-- The goroutines stop with the wrapped failure when the failing fetcher gets
its turn, the fetchers that run before it having succeeded. -/
theorem runGoroutines_fails (m : Methods) (force : Bool) (schedule : List Nat)
    (fetchers : List RepositoryFetcher) (ran : List Nat) (wg : Nat)
    (i : Nat) (f f1 : RepositoryFetcher) (cause : String)
    (hi : fetchers[i]? = some f) (hran : i ∉ ran)
    (hfail : m.fetchWithKey f (m.Key f) force = (f1, some cause))
    (hothers : ∀ j g, j ≠ i → j ∉ ran → fetchers[j]? = some g →
      (m.fetchWithKey g (m.Key g) force).2 = none)
    (hsched : i ∈ schedule) :
    ∃ fs wg1, runGoroutines m force schedule fetchers ran wg =
      (fs, wg1, some (.failedToLoad (m.FetcherString f1) cause)) := by
  induction schedule generalizing fetchers ran wg with
  | nil => simp at hsched
  | cons k rest ih =>
    by_cases hk : k ∈ ran
    · have hki : k ≠ i := fun h => hran (h ▸ hk)
      have hin : i ∈ rest := by
        rcases List.mem_cons.mp hsched with h | h
        · exact absurd h.symm hki
        · exact h
      simp only [runGoroutines, hk, if_true]
      exact ih fetchers ran wg hi hran hothers hin
    · simp only [runGoroutines, hk, if_false]
      rcases hg : fetchers[k]? with _ | g
      · have hki : k ≠ i := by
          intro h
          rw [h, hi] at hg
          simp at hg
        have hin : i ∈ rest := by
          rcases List.mem_cons.mp hsched with h | h
          · exact absurd h.symm hki
          · exact h
        simp only []
        exact ih fetchers ran wg hi hran hothers hin
      · by_cases hki : k = i
        · subst hki
          rw [hi] at hg
          simp only [Option.some.injEq] at hg
          subst hg
          exact ⟨fetchers.set k f1, wg, by simp [fetchOne_of_failure m force f f1 cause hfail]⟩
        · have hin : i ∈ rest := by
            rcases List.mem_cons.mp hsched with h | h
            · exact absurd h.symm hki
            · exact h
          obtain ⟨g1, hg1⟩ := fetchOne_of_success m force g (hothers k g hki hk hg)
          simp only [hg1]
          apply ih
          · rw [List.getElem?_set_ne hki]; exact hi
          · intro hmem
            rcases List.mem_cons.mp hmem with h | h
            · exact hki h.symm
            · exact hran h
          · intro j g2 hji hjran hg2
            have hjk : j ≠ k := fun h => hjran (h ▸ List.mem_cons_self _ _)
            rw [List.getElem?_set_ne (fun h => hjk h.symm)] at hg2
            exact hothers j g2 hji (fun h => hjran (List.mem_cons_of_mem _ h)) hg2
          · exact hin

/-- C11: when exactly one of the fetchers fails to fetch (and, without
`NoParallel`, its goroutine gets to run), `FetchAll` returns the error
`failed to load <fetcher>: <cause>` that names that fetcher and carries its
failure, and the index map after the call is the index map before the call: no
rebuild happens. -/
theorem FetchAll_one_failure (m : Methods) (db : PackageDatabase) (schedule : List Nat)
    (i : Nat) (f f1 : RepositoryFetcher) (cause : String)
    (hi : db.Fetchers[i]? = some f)
    (hfail : m.fetchWithKey f (m.Key f) db.ForceRefresh = (f1, some cause))
    (hothers : ∀ j g, j ≠ i → db.Fetchers[j]? = some g →
      (m.fetchWithKey g (m.Key g) db.ForceRefresh).2 = none)
    (hsched : db.NoParallel = false → i ∈ schedule) :
    ∃ db1, FetchAll m db schedule =
        .returned (some (.failedToLoad (m.FetcherString f1) cause)) db1 ∧
      db1.packageMap = db.packageMap := by
  unfold FetchAll
  by_cases hnp : db.NoParallel = true
  · obtain ⟨fs, wg1, h⟩ := fetchSequential_fails m db.ForceRefresh db.Fetchers i f f1 cause 0
      hi hfail hothers
    simp only [hnp, if_true, h]
    exact ⟨_, rfl, rfl⟩
  · have hnp2 : db.NoParallel = false := by simpa using hnp
    obtain ⟨fs, wg1, h⟩ := runGoroutines_fails m db.ForceRefresh schedule db.Fetchers []
      db.Fetchers.length i f f1 cause hi (by simp) hfail
      (fun j g hj _ hg => hothers j g hj hg) (hsched hnp2)
    simp only [hnp2, Bool.false_eq_true, if_false, h]
    exact ⟨_, rfl, rfl⟩

/-- Witness of C11: of three fetchers the second is down; whatever the order in
which the goroutines run, here third, second, first, `FetchAll` returns the
failure of the second and the index is as before. -/
theorem FetchAll_one_failure_witness :
    dbOneDown.Fetchers[1]? = some ⟨"down", [pkgZ]⟩ ∧
      ∃ db1, FetchAll refreshMethods dbOneDown [2, 1, 0] =
          .returned (some (.failedToLoad (refreshMethods.FetcherString ⟨"down", [pkgZ]⟩)
            "connection refused")) db1 ∧
        db1.packageMap = dbOneDown.packageMap :=
  ⟨rfl, FetchAll_one_failure refreshMethods dbOneDown [2, 1, 0] 1 ⟨"down", [pkgZ]⟩
    ⟨"down", [pkgZ]⟩ "connection refused" rfl rfl
    (by
      intro j g hj hg
      rcases j with _ | _ | _ | j
      · simp only [dbOneDown, List.getElem?_cons_zero, Option.some.injEq] at hg
        subst hg
        rfl
      · exact absurd rfl hj
      · simp only [dbOneDown, List.getElem?_cons_succ, List.getElem?_cons_zero,
          Option.some.injEq] at hg
        subst hg
        rfl
      · simp [dbOneDown] at hg)
    (fun _ => by decide)⟩

/-! ## Bulk fetch: the mode without goroutines -/

/-- In the sequential loop every successful fetch leaves the wait counter one
higher: nothing takes it down. -/
theorem fetchSequential_succeeds (m : Methods) (force : Bool)
    (fetchers : List RepositoryFetcher) (wg : Nat)
    (hall : ∀ f ∈ fetchers, (m.fetchWithKey f (m.Key f) force).2 = none) :
    ∃ fs, fetchSequential m force fetchers wg = (fs, wg + fetchers.length, none) := by
  induction fetchers generalizing wg with
  | nil => exact ⟨[], rfl⟩
  | cons f rest ih =>
    obtain ⟨f1, hf⟩ := fetchOne_of_success m force f (hall f (List.mem_cons_self _ _))
    obtain ⟨fs, hrest⟩ := ih (wg + 1) (fun g hg => hall g (List.mem_cons_of_mem _ hg))
    refine ⟨f1 :: fs, ?_⟩
    simp only [fetchSequential, hf, hrest, List.length_cons]
    congr 2
    omega

/-- With `NoParallel` set, at least one fetcher and every fetch successful,
`FetchAll` never returns: the wait counter stays at the number of fetchers, the
completion is never signalled, and the index is not rebuilt. -/
theorem FetchAll_sequential_blocked (m : Methods) (db : PackageDatabase) (schedule : List Nat)
    (hnp : db.NoParallel = true) (hne : db.Fetchers ≠ [])
    (hall : ∀ f ∈ db.Fetchers, (m.fetchWithKey f (m.Key f) db.ForceRefresh).2 = none) :
    ∃ db1, FetchAll m db schedule = .blocked db1 ∧ db1.packageMap = db.packageMap := by
  obtain ⟨fs, h⟩ := fetchSequential_succeeds m db.ForceRefresh db.Fetchers 0 hall
  have hpos : 0 + db.Fetchers.length ≠ 0 := by
    have := List.length_pos.mpr hne
    omega
  unfold FetchAll
  simp only [hnp, if_true, h, hpos, if_false]
  exact ⟨_, rfl, rfl⟩

/-- C12, the code at the failing input: with `NoParallel` set and one fetcher
whose fetch succeeds, the sequential loop leaves the wait counter at 1 (the
`wg.Add(1)` of the round has no `wg.Done`), and `FetchAll` stays blocked in its
`select` with the index not rebuilt, whereas the same database without
`NoParallel` returns no error with the index rebuilt. -/
theorem FetchAll_NoParallel_blocks :
    fetchSequential exampleMethods dbNoParallel.ForceRefresh dbNoParallel.Fetchers 0 =
        (dbNoParallel.Fetchers, 1, none) ∧
      (∀ schedule, FetchAll exampleMethods dbNoParallel schedule = .blocked dbNoParallel) ∧
      FetchAll exampleMethods { dbNoParallel with NoParallel := false } [0] =
        .returned none { dbNoParallel with
          NoParallel := false
          packageMap := rebuildIndex exampleMethods dbNoParallel.Fetchers } :=
  ⟨rfl, fun _ => rfl, rfl⟩

/-! ## Background refresh: the merge of one fetcher -/

/-- C13: when the fetch of a background refresh succeeds, the merge leaves
every key of the index mapped to the last package of that name in the list of
the fetcher, when the list has one, and to what it was mapped to before
otherwise: only keys `Name.String()` of packages of that fetcher are written,
every other entry, those of other fetchers included, is as before, and no key
is removed.  When the fetch fails the index is not touched. -/
theorem refreshWorker_merges (m : Methods) (index : String → Option Package)
    (fetcher : RepositoryFetcher) (force : Bool) :
    (∀ fetcher1, m.fetchWithKey fetcher (m.Key fetcher) force = (fetcher1, none) →
        (refreshWorker m index fetcher force).1 = fetcher1 ∧
        ∀ k,
          (refreshWorker m index fetcher force).2 k =
              (match lastNamed m k fetcher1.Packages with
                | some pkg => some pkg
                | none => index k) ∧
            ((∀ pkg ∈ fetcher1.Packages, m.NameString pkg.Name ≠ k) →
              (refreshWorker m index fetcher force).2 k = index k) ∧
            (index k ≠ none → (refreshWorker m index fetcher force).2 k ≠ none)) ∧
      ∀ fetcher1 cause,
        m.fetchWithKey fetcher (m.Key fetcher) force = (fetcher1, some cause) →
        (refreshWorker m index fetcher force).2 = index := by
  constructor
  · intro fetcher1 hf
    have hw : refreshWorker m index fetcher force =
        (fetcher1, indexPackages m index fetcher1.Packages) := by
      simp [refreshWorker, hf]
    rw [hw]
    refine ⟨rfl, ?_⟩
    intro k
    have happ := indexPackages_apply m index fetcher1.Packages k
    refine ⟨happ, ?_, ?_⟩
    · intro hnone
      have hl : lastNamed m k fetcher1.Packages = none := by
        unfold lastNamed
        rw [List.getLast?_eq_none_iff, List.filter_eq_nil_iff]
        intro pkg hpkg
        simpa using hnone pkg hpkg
      simp only [happ, hl]
    · intro hk
      simp only [happ]
      cases lastNamed m k fetcher1.Packages with
      | none => exact hk
      | some pkg => simp
  · intro fetcher1 cause hf
    simp [refreshWorker, hf]

/-- Witness of C13: the forced refresh of a fetcher that lists `vim` finds
`emacs` as well; both keys are written, the entry of `z`, from another fetcher,
is as before; and the refresh of the fetcher that is down leaves the index
alone. -/
theorem refreshWorker_merges_witness :
    (refreshWorker refreshMethods dbOneDown.packageMap ⟨"up", [pkgVim]⟩ true).2 "/emacs//" =
        some pkgEmacs ∧
      (refreshWorker refreshMethods dbOneDown.packageMap ⟨"up", [pkgVim]⟩ true).2 "/z//" =
        dbOneDown.packageMap "/z//" ∧
      (refreshWorker refreshMethods dbOneDown.packageMap ⟨"down", [pkgZ]⟩ true).2 =
        dbOneDown.packageMap :=
  ⟨rfl,
    (((refreshWorker_merges refreshMethods dbOneDown.packageMap ⟨"up", [pkgVim]⟩ true).1
      ⟨"up", [pkgVim, pkgEmacs]⟩ rfl).2 "/z//").2.1 (by decide),
    (refreshWorker_merges refreshMethods dbOneDown.packageMap ⟨"down", [pkgZ]⟩ true).2
      ⟨"down", [pkgZ]⟩ "connection refused" rfl⟩

/-! ## Background refresh: the worker pool and the queue -/

theorem PoolBounded_StartAutoRefresh (db : PackageDatabase) (maxParallelFetchers : Nat) :
    PoolBounded maxParallelFetchers (StartAutoRefresh db maxParallelFetchers) := by
  simp [PoolBounded, StartAutoRefresh]

/-- No step of a goroutine changes the number of workers, and a send is taken
only while the channel has room. -/
theorem refreshStep_bounded (m : Methods) (maxParallelFetchers : Nat) (forceRefresh : Bool)
    (s s1 : RefreshState) (event : RefreshEvent)
    (hs : PoolBounded maxParallelFetchers s)
    (h : refreshStep m maxParallelFetchers forceRefresh s event = some s1) :
    PoolBounded maxParallelFetchers s1 := by
  obtain ⟨hw, hq⟩ := hs
  cases event with
  | first i =>
    simp only [refreshStep] at h
    split at h
    · rename_i hg
      simp only [Option.some.injEq] at h
      subst h
      exact ⟨hw, by simp only [List.length_append, List.length_singleton]; omega⟩
    · simp at h
  | tick i =>
    simp only [refreshStep] at h
    split at h
    · rename_i hg
      simp only [Option.some.injEq] at h
      subst h
      exact ⟨hw, by simp only [List.length_append, List.length_singleton]; omega⟩
    · simp at h
  | receive w =>
    simp only [refreshStep] at h
    split at h
    · rename_i r rest hwk hreq
      simp only [Option.some.injEq] at h
      subst h
      refine ⟨by simpa using hw, ?_⟩
      rw [hreq] at hq
      simp only [List.length_cons] at hq
      show rest.length ≤ maxParallelFetchers
      omega
    · simp at h
  | complete w =>
    simp only [refreshStep] at h
    split at h
    · split at h
      · simp only [Option.some.injEq] at h
        subst h
        exact ⟨by simpa using hw, hq⟩
      · simp at h
    · simp at h

theorem refreshRun_bounded (m : Methods) (maxParallelFetchers : Nat) (forceRefresh : Bool)
    (events : List RefreshEvent) (s s1 : RefreshState)
    (hs : PoolBounded maxParallelFetchers s)
    (h : refreshRun m maxParallelFetchers forceRefresh events s = some s1) :
    PoolBounded maxParallelFetchers s1 := by
  induction events generalizing s with
  | nil =>
    simp only [refreshRun, Option.some.injEq] at h
    subst h
    exact hs
  | cons e rest ih =>
    simp only [refreshRun] at h
    rcases hstep : refreshStep m maxParallelFetchers forceRefresh s e with _ | s2
    · simp [hstep] at h
    · simp only [hstep] at h
      exact ih s2 (refreshStep_bounded m maxParallelFetchers forceRefresh s s2 e hs hstep) h

theorem inFlight_le_workers (s : RefreshState) : inFlight s ≤ s.workers.length :=
  List.length_filterMap_le _ _

theorem fetchesInFlight_le_inFlight (s : RefreshState) (i : Nat) :
    fetchesInFlight s i ≤ inFlight s :=
  List.length_filter_le _ _

/-- C14: in every reachable state of the schedulers, the queue and the workers
of `StartAutoRefresh`, whatever the number of fetchers and whatever
`maxParallelFetchers`, the number of fetch calls in flight is at most
`maxParallelFetchers` and so is the number of queued refresh requests. -/
theorem StartAutoRefresh_bounded (m : Methods) (db : PackageDatabase)
    (maxParallelFetchers : Nat) (forceRefresh : Bool) (s : RefreshState)
    (h : Reachable m db maxParallelFetchers forceRefresh s) :
    inFlight s ≤ maxParallelFetchers ∧ s.updateRequests.length ≤ maxParallelFetchers := by
  obtain ⟨events, hrun⟩ := h
  obtain ⟨hw, hq⟩ := refreshRun_bounded m maxParallelFetchers forceRefresh events _ s
    (PoolBounded_StartAutoRefresh db maxParallelFetchers) hrun
  exact ⟨hw ▸ inFlight_le_workers s, hq⟩

/-- Witness of C14: with three fetchers and two workers, after the three
schedulers have sent what the queue takes and both workers have a fetch in
flight, two fetches are in flight and two requests are queued. -/
theorem StartAutoRefresh_bounded_witness :
    Reachable exampleMethods dbOneDown 2 false
        ⟨dbOneDown.Fetchers, fun _ => none, [⟨2, false⟩, ⟨0, true⟩], [true, true, true],
          [some ⟨0, false⟩, some ⟨1, false⟩]⟩ ∧
      (inFlight ⟨dbOneDown.Fetchers, fun _ => none, [⟨2, false⟩, ⟨0, true⟩], [true, true, true],
          [some ⟨0, false⟩, some ⟨1, false⟩]⟩ ≤ 2 ∧
        ([⟨2, false⟩, ⟨0, true⟩] : List UpdateRequest).length ≤ 2) :=
  have hr : Reachable exampleMethods dbOneDown 2 false
      ⟨dbOneDown.Fetchers, fun _ => none, [⟨2, false⟩, ⟨0, true⟩], [true, true, true],
        [some ⟨0, false⟩, some ⟨1, false⟩]⟩ :=
    ⟨[.first 0, .first 1, .receive 0, .receive 1, .first 2, .tick 0], rfl⟩
  ⟨hr, StartAutoRefresh_bounded exampleMethods dbOneDown 2 false _ hr⟩

/-! ## Background refresh: fetches of one fetcher -/

/-- C15 as the code has it, counterexample: with one fetcher and two workers,
the scheduler sends its first request, a worker receives it and starts the
fetch, the scheduler sends the request of the next tick while that fetch is
still running, and the other worker starts a second fetch of the same fetcher:
two fetches of the fetcher are in flight at the same time. -/
theorem StartAutoRefresh_concurrent_fetches :
    Reachable exampleMethods dbSingle 2 false
        ⟨dbSingle.Fetchers, fun _ => none, [], [true], [some ⟨0, false⟩, some ⟨0, true⟩]⟩ ∧
      fetchesInFlight
        ⟨dbSingle.Fetchers, fun _ => none, [], [true], [some ⟨0, false⟩, some ⟨0, true⟩]⟩ 0 = 2 :=
  ⟨⟨[.first 0, .receive 0, .tick 0, .receive 1], rfl⟩, rfl⟩

/-- C15, amended: in every reachable state of the schedulers, the queue and
the workers of `StartAutoRefresh`, for every fetcher, the number of fetches of
that fetcher in flight is at most `maxParallelFetchers`; so with
`maxParallelFetchers = 1` at most one fetch of a fetcher is in flight. -/
theorem StartAutoRefresh_fetches_of_one_fetcher (m : Methods) (db : PackageDatabase)
    (maxParallelFetchers : Nat) (forceRefresh : Bool) (s : RefreshState)
    (h : Reachable m db maxParallelFetchers forceRefresh s) (i : Nat) :
    fetchesInFlight s i ≤ maxParallelFetchers ∧
      (maxParallelFetchers = 1 → fetchesInFlight s i ≤ 1) := by
  obtain ⟨events, hrun⟩ := h
  obtain ⟨hw, _⟩ := refreshRun_bounded m maxParallelFetchers forceRefresh events _ s
    (PoolBounded_StartAutoRefresh db maxParallelFetchers) hrun
  have hle : fetchesInFlight s i ≤ maxParallelFetchers :=
    le_trans (fetchesInFlight_le_inFlight s i) (hw ▸ inFlight_le_workers s)
  exact ⟨hle, fun h1 => h1 ▸ hle⟩

/-- Witness of the amended C15: with a single worker, the request of the next
tick waits in the queue while the fetch of the first request is in flight. -/
theorem StartAutoRefresh_fetches_of_one_fetcher_witness :
    Reachable exampleMethods dbSingle 1 false
        ⟨dbSingle.Fetchers, fun _ => none, [⟨0, true⟩], [true], [some ⟨0, false⟩]⟩ ∧
      (fetchesInFlight
          ⟨dbSingle.Fetchers, fun _ => none, [⟨0, true⟩], [true], [some ⟨0, false⟩]⟩ 0 ≤ 1 ∧
        ((1 : Nat) = 1 → fetchesInFlight
          ⟨dbSingle.Fetchers, fun _ => none, [⟨0, true⟩], [true], [some ⟨0, false⟩]⟩ 0 ≤ 1)) :=
  have hr : Reachable exampleMethods dbSingle 1 false
      ⟨dbSingle.Fetchers, fun _ => none, [⟨0, true⟩], [true], [some ⟨0, false⟩]⟩ :=
    ⟨[.first 0, .receive 0, .tick 0], rfl⟩
  ⟨hr, StartAutoRefresh_fetches_of_one_fetcher exampleMethods dbSingle 1 false _ hr 0⟩

end Pkg2
